import Mathlib

/-!
Verification of the linked hash map in `src/HashMap.h`.

The C++ class `HashMap<KeyType, ValueType, Hash>` stores shared nodes
(`HashMapNode`) that live simultaneously in one bucket chain
(`buckets[i] : std::list<pNode>`) and in the global order sequence
(`nodes_sequence : std::list<pNode>`).  We embed the container state
shallowly: nodes are identified by their allocation index into an
append-only `store` (node ids are never reused within a run, which models
pointer identity of `std::shared_ptr<Node>`); `buckets` and `seq` hold node
ids; mutation of a node's fields (`bucket_index`, the mapped value) is a
`List.set` on the store, visible from both structures exactly as the shared
pointer makes it in C++.

Numeric modelling of `check_load_factor`: the C++ code compares the double
`sz / capacity` with the double constants `0.7` and `0.7 / 4`.  `capacity`
is always `16 * 2 ^ j`, so `sz / capacity` is a dyadic rational represented
exactly, while `double(0.7)` lies strictly below `7 / 10` and
`double(0.7) / 4` strictly below `7 / 40`; no dyadic rational with a
denominator below `2 ^ 50` falls in either rounding gap, and neither
`10 * sz = 7 * capacity` nor `40 * sz = 7 * capacity` is solvable with
`capacity` a power of two (both would force `5 ∣ 7 * 2 ^ k`).  Hence the
comparisons `sz / capacity ≥ 0.7` and `sz / capacity ≤ 0.7 / 4` are exactly
`10 * sz ≥ 7 * capacity` and `40 * sz ≤ 7 * capacity`, which is how we
render them.
-/

namespace HashMapVerify

/-- One `HashMapNode`: the immutable key, the mutable mapped value, and the
cached `bucket_index` ("keep this value to avoid calculating hash again").
The `sequence_pos` member is represented implicitly: a node's position in
the order sequence is its (unique) occurrence in `seq`. -/
structure NodeData (K V : Type) where
  key : K
  value : V
  bucket_index : Nat
  deriving DecidableEq, Repr

instance {K V : Type} [Inhabited K] [Inhabited V] : Inhabited (NodeData K V) :=
  ⟨⟨default, default, 0⟩⟩

/-- The state of a `HashMap<K, V, Hash>` object.  `store` is the allocation
arena: node id `n` denotes `store[n]`, and erased nodes simply stop being
referenced from `buckets`/`seq` (matching `shared_ptr` release).  `buckets`,
`seq`, `capacity` and `sz` are the private members `buckets`,
`nodes_sequence`, `capacity` and `sz`; `hasher` is the `Hash` object. -/
structure HM (K V : Type) where
  hasher : K → Nat
  store : List (NodeData K V)
  buckets : List (List Nat)
  seq : List Nat
  capacity : Nat
  sz : Nat

variable {K V : Type} [DecidableEq K] [Inhabited K] [Inhabited V]

/-- `INIT_CAPACITY` from the source. -/
def INIT_CAPACITY : Nat := 16

/-- Dereference a node id (a `shared_ptr<Node>` in the source). -/
def getNode (s : HM K V) (n : Nat) : NodeData K V :=
  s.store.getD n default

/-- The bucket `buckets[i]`. -/
def bucketAt (s : HM K V) (i : Nat) : List Nat :=
  s.buckets.getD i []

/-- `get_hash`: `hasher(key) % capacity`. -/
def get_hash (s : HM K V) (key : K) : Nat :=
  s.hasher key % s.capacity

/-- `std::vector::resize(n)` on the bucket array: truncate to `n` entries or
pad with default-constructed (empty) chains. -/
def vecResize (l : List (List Nat)) (n : Nat) : List (List Nat) :=
  l.take n ++ List.replicate (n - l.length) []

/-- The default constructor `HashMap(hasher)`: size 0, capacity
`INIT_CAPACITY`, `INIT_CAPACITY` empty buckets, empty order sequence. -/
def mkHashMap (hasher : K → Nat) : HM K V :=
  { hasher := hasher
    store := []
    buckets := List.replicate INIT_CAPACITY []
    seq := []
    capacity := INIT_CAPACITY
    sz := 0 }

/-- `find(key)`: scan the chain `buckets[get_hash(key)]` for the first node
whose key compares equal; the returned iterator is the node's
`sequence_pos`, which we represent by the node id; `none` is the end
sentinel. -/
def find (s : HM K V) (key : K) : Option Nat :=
  (bucketAt s (get_hash s key)).find? (fun n => decide ((getNode s n).key = key))

/-- Dereferencing the iterator returned by `find` (`*it` is the node's
`map_pair`). -/
def findPair (s : HM K V) (key : K) : Option (K × V) :=
  (find s key).map (fun n => ((getNode s n).key, (getNode s n).value))

/-- `rehash()`'s loop body for one node of `nodes_sequence`: pop the front
of the old chain when the cached index is still addressable, recompute the
cached index against the (already updated) capacity, and `push_back` the
node onto its new chain. -/
def rehashStep (hasher : K → Nat) (cap : Nat)
    (acc : List (NodeData K V) × List (List Nat)) (n : Nat) :
    List (NodeData K V) × List (List Nat) :=
  let store := acc.1
  let bks := acc.2
  let nd := store.getD n default
  let bks :=
    if nd.bucket_index < cap then
      bks.set nd.bucket_index (bks.getD nd.bucket_index []).tail
    else bks
  let newIdx := hasher nd.key % cap
  let store := store.set n { nd with bucket_index := newIdx }
  let bks := bks.set newIdx ((bks.getD newIdx []) ++ [n])
  (store, bks)

/-- `rehash()`: resize the bucket array to the current capacity, then walk
`nodes_sequence` applying `rehashStep`.  `seq`, `sz` and `capacity` are not
touched. -/
def rehash (s : HM K V) : HM K V :=
  let bks0 := vecResize s.buckets s.capacity
  let p := s.seq.foldl (rehashStep s.hasher s.capacity) (s.store, bks0)
  { s with store := p.1, buckets := p.2 }

/-- `check_load_factor()`: grow (double) when `sz / capacity ≥ 0.7`, else
shrink (halve) when `capacity > INIT_CAPACITY` and
`sz / capacity ≤ 0.7 / 4`, else do nothing; on a capacity change, rehash.
See the header comment for why the double comparisons are exactly these
integer inequalities. -/
def check_load_factor (s : HM K V) : HM K V :=
  if 7 * s.capacity ≤ 10 * s.sz then
    rehash { s with capacity := s.capacity * 2 }
  else if INIT_CAPACITY < s.capacity ∧ 40 * s.sz ≤ 7 * s.capacity then
    rehash { s with capacity := s.capacity / 2 }
  else s

/-- `_insert(map_pair)` ("insertion without any checks"): increment `sz`,
evaluate the resize policy, allocate the node, cache its bucket index,
`emplace_front` it on its chain and `push_front` it on the order sequence.
Returns the new state together with the new node's id (the iterator
`iterator(nodes_sequence.begin())`). -/
def insertRaw (s : HM K V) (key : K) (value : V) : HM K V × Nat :=
  let s1 := check_load_factor { s with sz := s.sz + 1 }
  let idx := get_hash s1 key
  let n := s1.store.length
  let s2 := { s1 with
    store := s1.store ++ [⟨key, value, idx⟩]
    buckets := s1.buckets.set idx (n :: bucketAt s1 idx)
    seq := n :: s1.seq }
  (s2, n)

/-- `insert(map_pair)`: a no-op when `find` does not hit the end sentinel,
otherwise `_insert`. -/
def insert (s : HM K V) (key : K) (value : V) : HM K V :=
  match find s key with
  | some _ => s
  | none => (insertRaw s key value).1

/-- Overwrite the mapped value of node `n` (a write through the reference
`operator[]` returns, or through an iterator). -/
def setValue (s : HM K V) (n : Nat) (v : V) : HM K V :=
  { s with store := s.store.set n { s.store.getD n default with value := v } }

/-- `operator[](key)` evaluated for its side effect only (no write through
the returned reference): insert a default-constructed value when absent. -/
def opIndexTouch (s : HM K V) (key : K) : HM K V :=
  match find s key with
  | some _ => s
  | none => (insertRaw s key default).1

/-- `m[key] = v`: `operator[]` followed by a write through the returned
reference. -/
def opIndexAssign (s : HM K V) (key : K) (v : V) : HM K V :=
  match find s key with
  | some n => setValue s n v
  | none =>
    let p := insertRaw s key default
    setValue p.1 p.2 v

/-- `erase(key)`: scan the chain for the key; when found, unlink the node
from `nodes_sequence` (via its `sequence_pos`) and from the chain,
decrement `sz`, and evaluate the resize policy; otherwise do nothing.
Node ids occur at most once in `seq` and in any chain, so erasing the id by
value is exactly the positional `std::list::erase` of the source. -/
def erase (s : HM K V) (key : K) : HM K V :=
  let idx := get_hash s key
  let bucket := bucketAt s idx
  match bucket.find? (fun n => decide ((getNode s n).key = key)) with
  | none => s
  | some n =>
    check_load_factor
      { s with
        seq := s.seq.erase n
        buckets := s.buckets.set idx (bucket.erase n)
        sz := s.sz - 1 }

/-- The single error kind of the container (`std::out_of_range` thrown by
`at`, called `NotFound` by the specification). -/
inductive HMError where
  | NotFound
  deriving DecidableEq, Repr

/-- `at(key)`: like `find`, but signals `NotFound` on the end sentinel and
otherwise returns the mapped value. -/
def atKey (s : HM K V) (key : K) : Except HMError V :=
  match find s key with
  | none => .error .NotFound
  | some n => .ok (getNode s n).value

/-- `clear()`: pop the front of `buckets[node->bucket_index]` for every node
of the order sequence, clear the order sequence, `resize(INIT_CAPACITY)`,
and zero the size. -/
def clear (s : HM K V) : HM K V :=
  let bks := s.seq.foldl
    (fun bks n =>
      bks.set (getNode s n).bucket_index (bks.getD (getNode s n).bucket_index []).tail)
    s.buckets
  { s with
    buckets := vecResize bks INIT_CAPACITY
    seq := []
    capacity := INIT_CAPACITY
    sz := 0 }

/-- `size()`. -/
def size (s : HM K V) : Nat := s.sz

/-- `empty()`. -/
def isEmpty (s : HM K V) : Bool := s.sz == 0

/-- The pairs produced by iterating from `begin()` to `end()`:
`begin()` is `nodes_sequence.begin()`, `operator++` follows the list, and
dereferencing yields the node's `map_pair`; so iteration yields the order
sequence head to tail, each node dereferenced. -/
def entries (s : HM K V) : List (K × V) :=
  s.seq.map (fun n => ((getNode s n).key, (getNode s n).value))

/-- The mapped value at `key`, read through `find`. -/
def lookupVal (s : HM K V) (key : K) : Option V :=
  (find s key).map (fun n => (getNode s n).value)

/-- The mutating public operations (queries do not change the state). -/
inductive Op (K V : Type) where
  | ins (k : K) (v : V)
  | ers (k : K)
  | clr
  | idxTouch (k : K)
  | idxAssign (k : K) (v : V)

/-- Apply one mutating operation. -/
def applyOp (s : HM K V) : Op K V → HM K V
  | .ins k v => insert s k v
  | .ers k => erase s k
  | .clr => clear s
  | .idxTouch k => opIndexTouch s k
  | .idxAssign k v => opIndexAssign s k v

/-- Run a sequence of public operations. -/
def runOps (s : HM K V) (ops : List (Op K V)) : HM K V :=
  ops.foldl applyOp s

/-- The capacity that `check_load_factor` leaves behind when called with
size `n` and capacity `c`. -/
def capStep (n c : Nat) : Nat :=
  if 7 * c ≤ 10 * n then c * 2
  else if INIT_CAPACITY < c ∧ 40 * n ≤ 7 * c then c / 2
  else c

/-! ### The abstract model (from the specification's words)

The spec describes the externally observable content as a sequence of
(key, value) pairs in most-recently-inserted-first order: insert prepends
when absent, erase drops the key, `operator[]` prepends a default when
absent, a write through `operator[]` updates in place, `clear` empties.
The refinement theorems compare `entries` of the code's state with a run
of this model. -/

/-- Lookup in the abstract association list. -/
def mLookup (k : K) (l : List (K × V)) : Option V :=
  (l.find? (fun p => decide (p.1 = k))).map Prod.snd

/-- Modelled from the spec: one public mutating operation on the abstract
most-recently-inserted-first association list. -/
def mStep (l : List (K × V)) : Op K V → List (K × V)
  | .ins k v => if (mLookup k l).isSome then l else (k, v) :: l
  | .ers k => l.filter (fun p => !decide (p.1 = k))
  | .clr => []
  | .idxTouch k => if (mLookup k l).isSome then l else (k, default) :: l
  | .idxAssign k v =>
    if (mLookup k l).isSome then l.map (fun p => if p.1 = k then (k, v) else p)
    else (k, v) :: l

/-- Modelled from the spec: a run of public operations on the abstract
association list. -/
def mRun (ops : List (Op K V)) (l : List (K × V)) : List (K × V) :=
  ops.foldl mStep l

/-! ### List-level helper lemmas -/

theorem getD_set_self {α : Type _} (l : List α) (i : Nat) (x d : α) (h : i < l.length) :
    (l.set i x).getD i d = x := by
  rw [List.getD_eq_getElem?_getD, List.getElem?_set_self h]
  rfl

theorem getD_set_ne {α : Type _} (l : List α) {i j : Nat} (x d : α) (h : i ≠ j) :
    (l.set i x).getD j d = l.getD j d := by
  rw [List.getD_eq_getElem?_getD, List.getElem?_set_ne h, ← List.getD_eq_getElem?_getD]

theorem getD_append_left {α : Type _} {l₁ l₂ : List α} {i : Nat} (d : α) (h : i < l₁.length) :
    (l₁ ++ l₂).getD i d = l₁.getD i d := by
  rw [List.getD_eq_getElem?_getD, List.getElem?_append, if_pos h, ← List.getD_eq_getElem?_getD]

theorem getD_append_self {α : Type _} (l : List α) (x d : α) :
    (l ++ [x]).getD l.length d = x := by
  rw [List.getD_eq_getElem?_getD, List.getElem?_append_right (Nat.le_refl _)]
  simp

theorem getD_of_length_le {α : Type _} {l : List α} {i : Nat} (d : α) (h : l.length ≤ i) :
    l.getD i d = d := by
  rw [List.getD_eq_getElem?_getD, List.getElem?_eq_none h]
  rfl

theorem length_vecResize (l : List (List Nat)) (n : Nat) : (vecResize l n).length = n := by
  simp [vecResize]
  omega

theorem getD_vecResize_lt {l : List (List Nat)} {n i : Nat} (h1 : i < n) (h2 : i < l.length) :
    (vecResize l n).getD i [] = l.getD i [] := by
  rw [vecResize, getD_append_left _ (by simpa using And.intro h1 h2)]
  rw [List.getD_eq_getElem?_getD, List.getElem?_take, if_pos h1, ← List.getD_eq_getElem?_getD]

theorem getD_vecResize_pad {l : List (List Nat)} {n i : Nat} (h2 : l.length ≤ i) :
    (vecResize l n).getD i [] = [] := by
  rcases Nat.lt_or_ge i n with hn | hn
  · rw [vecResize, List.getD_eq_getElem?_getD,
      List.getElem?_append_right (by simp; omega), List.getElem?_replicate]
    have : i - (List.take n l).length < n - l.length := by simp; omega
    rw [if_pos this]
    rfl
  · exact getD_of_length_le _ (by rw [length_vecResize]; omega)

theorem sum_map_add {α : Type _} (l : List α) (f g : α → Nat) :
    (l.map (fun a => f a + g a)).sum = (l.map f).sum + (l.map g).sum := by
  induction l with
  | nil => rfl
  | cons a l ih => simp [ih]; omega

theorem sum_map_ite_eq {x : Nat} (c : Nat) (h : x < c) :
    ((List.range c).map (fun i => if x = i then 1 else 0)).sum = 1 := by
  induction c with
  | zero => omega
  | succ c ih =>
    rw [List.range_succ]
    rcases Nat.lt_or_ge x c with hx | hx
    · simp [ih hx, Nat.ne_of_lt hx]
    · have hxc : x = c := by omega
      subst hxc
      have : ((List.range x).map (fun i => if x = i then 1 else 0)).sum = 0 := by
        apply List.sum_eq_zero
        intro y hy
        simp only [List.mem_map, List.mem_range] at hy
        obtain ⟨i, hi, rfl⟩ := hy
        simp [Nat.ne_of_gt hi]
      simp [this]

theorem sum_filter_count (c : Nat) (f : Nat → Nat) :
    ∀ l : List Nat, (∀ n ∈ l, f n < c) →
      ((List.range c).map (fun i => (l.filter (fun n => decide (f n = i))).length)).sum
        = l.length := by
  intro l
  induction l with
  | nil => intro _; simp
  | cons a l ih =>
    intro h
    have ha : f a < c := h a (by simp)
    have hstep : ∀ i : Nat,
        ((a :: l).filter (fun n => decide (f n = i))).length
          = (if f a = i then 1 else 0) + (l.filter (fun n => decide (f n = i))).length := by
      intro i
      by_cases hfa : f a = i
      · simp [List.filter_cons, hfa]; omega
      · simp [List.filter_cons, hfa]
    calc ((List.range c).map
            (fun i => ((a :: l).filter (fun n => decide (f n = i))).length)).sum
        = ((List.range c).map (fun i =>
            (if f a = i then 1 else 0) + (l.filter (fun n => decide (f n = i))).length)).sum := by
          exact congrArg _ (List.map_congr_left (fun i _ => hstep i))
      _ = ((List.range c).map (fun i => if f a = i then 1 else 0)).sum
            + ((List.range c).map (fun i => (l.filter (fun n => decide (f n = i))).length)).sum :=
          sum_map_add _ _ _
      _ = 1 + l.length := by
          rw [sum_map_ite_eq c ha, ih (fun n hn => h n (by simp [hn]))]
      _ = (a :: l).length := by simp; omega

theorem find?_filter_of_imp {α : Type _} (l : List α) (pr q : α → Bool)
    (h : ∀ x ∈ l, pr x = true → q x = true) :
    (l.filter q).find? pr = l.find? pr := by
  induction l with
  | nil => rfl
  | cons a l ih =>
    have ih' := ih (fun x hx => h x (by simp [hx]))
    by_cases hq : q a = true
    · by_cases hp : pr a = true
      · simp [List.filter_cons, hq, List.find?_cons, hp]
      · simp only [Bool.not_eq_true] at hp
        simp [List.filter_cons, hq, List.find?_cons, hp, ih']
    · have hp : pr a = false := by
        rcases Bool.eq_false_or_eq_true (pr a) with h' | h'
        · exact absurd (h a (by simp) h') hq
        · exact h'
      simp only [Bool.not_eq_true] at hq
      simp [List.filter_cons, hq, List.find?_cons, hp, ih']

theorem mLookup_cons_ne (k k' : K) (v' : V) (l : List (K × V)) (h : k' ≠ k) :
    mLookup k ((k', v') :: l) = mLookup k l := by
  simp [mLookup, List.find?_cons, h]

theorem mLookup_cons_self (k : K) (v : V) (l : List (K × V)) :
    mLookup k ((k, v) :: l) = some v := by
  simp [mLookup, List.find?_cons]

theorem mLookup_filter_ne (k k' : K) (l : List (K × V)) (h : k' ≠ k) :
    mLookup k (l.filter (fun p => !decide (p.1 = k'))) = mLookup k l := by
  unfold mLookup
  rw [find?_filter_of_imp]
  intro x _ hx
  simp only [decide_eq_true_eq] at hx
  simp [hx, Ne.symm h]

theorem mLookup_filter_notMem (k : K) (ks : List K) (l : List (K × V)) (h : k ∉ ks) :
    mLookup k (l.filter (fun p => decide (p.1 ∉ ks))) = mLookup k l := by
  unfold mLookup
  rw [find?_filter_of_imp]
  intro x _ hx
  simp only [decide_eq_true_eq] at hx
  simp [hx, h]

theorem mLookup_map_update_ne (k k' : K) (v : V) (l : List (K × V)) (h : k' ≠ k) :
    mLookup k (l.map (fun p => if p.1 = k' then (k', v) else p)) = mLookup k l := by
  induction l with
  | nil => rfl
  | cons p l ih =>
    obtain ⟨a, b⟩ := p
    simp only [List.map_cons]
    by_cases ha : a = k'
    · subst ha
      rw [if_pos rfl, mLookup_cons_ne _ _ _ _ h, mLookup_cons_ne _ _ _ _ h, ih]
    · rw [if_neg (by simpa using ha)]
      by_cases hk : a = k
      · subst hk
        rw [mLookup_cons_self, mLookup_cons_self]
      · rw [mLookup_cons_ne _ _ _ _ hk, mLookup_cons_ne _ _ _ _ hk, ih]

theorem mLookup_eq_some_of_mem : ∀ {l : List (K × V)}, (l.map Prod.fst).Nodup →
    ∀ {p : K × V}, p ∈ l → mLookup p.1 l = some p.2 := by
  intro l
  induction l with
  | nil => intro _ p hp; cases hp
  | cons q l ih =>
    intro hnd p hp
    rcases List.mem_cons.1 hp with hp | hp
    · subst hp
      exact mLookup_cons_self _ _ _
    · have hq : q.1 ≠ p.1 := by
        intro he
        have hm : p.1 ∈ l.map Prod.fst := List.mem_map.2 ⟨p, hp, rfl⟩
        rw [← he] at hm
        exact (List.nodup_cons.1 hnd).1 hm
      rw [show q = (q.1, q.2) from rfl, mLookup_cons_ne _ _ _ _ hq]
      exact ih (List.nodup_cons.1 hnd).2 hp

/-! ### The structural invariant -/

/-- The structural well-formedness of a state: the bucket array has
`capacity` slots; the capacity is `INIT_CAPACITY` times a power of two; node
ids of the order sequence are distinct allocated nodes with pairwise
distinct keys; every node's cached `bucket_index` is its key's hash modulo
the capacity; and every bucket is exactly the subsequence of the order
sequence of the nodes cached for it (so chains list their nodes in order-
sequence order).  `WF` does not mention `sz`: it also holds at the point
inside `_insert` where `sz` has been incremented but the node not yet
linked. -/
structure WF (s : HM K V) : Prop where
  cap_buckets : s.buckets.length = s.capacity
  cap_pow : ∃ j, s.capacity = INIT_CAPACITY * 2 ^ j
  seq_nodup : s.seq.Nodup
  seq_lt : ∀ n ∈ s.seq, n < s.store.length
  keys_nodup : (s.seq.map (fun n => (getNode s n).key)).Nodup
  bidx_hash : ∀ n ∈ s.seq,
    (getNode s n).bucket_index = s.hasher (getNode s n).key % s.capacity
  buckets_eq : ∀ i < s.capacity,
    bucketAt s i = s.seq.filter (fun n => decide ((getNode s n).bucket_index = i))

/-- The full invariant: structural well-formedness plus the size field
counting the order sequence. -/
def Inv (s : HM K V) : Prop := WF s ∧ s.sz = s.seq.length

theorem WF.cap_pos {s : HM K V} (h : WF s) : 0 < s.capacity := by
  obtain ⟨j, hj⟩ := h.cap_pow
  rw [hj, INIT_CAPACITY]
  positivity

theorem WF.cap_init_le {s : HM K V} (h : WF s) : INIT_CAPACITY ≤ s.capacity := by
  obtain ⟨j, hj⟩ := h.cap_pow
  rw [hj]
  exact Nat.le_mul_of_pos_right _ (by positivity)

theorem WF.bidx_lt {s : HM K V} (h : WF s) {n : Nat} (hn : n ∈ s.seq) :
    (getNode s n).bucket_index < s.capacity := by
  rw [h.bidx_hash n hn]
  exact Nat.mod_lt _ h.cap_pos

theorem get_hash_lt {s : HM K V} (h : 0 < s.capacity) (k : K) : get_hash s k < s.capacity :=
  Nat.mod_lt _ h

/-! ### Characterization of `find` under the invariant -/

theorem find_eq_none_iff {s : HM K V} (h : WF s) (k : K) :
    find s k = none ↔ ∀ n ∈ s.seq, (getNode s n).key ≠ k := by
  unfold find
  rw [h.buckets_eq _ (get_hash_lt h.cap_pos k), List.find?_eq_none]
  constructor
  · intro hall n hn hk
    refine hall n (List.mem_filter.2 ⟨hn, ?_⟩) (by simpa using hk)
    simp [h.bidx_hash n hn, hk, get_hash]
  · intro hall n hn
    simpa using hall n (List.mem_filter.1 hn).1

theorem find_mem_seq {s : HM K V} (h : WF s) {k : K} {n : Nat} (hf : find s k = some n) :
    n ∈ s.seq ∧ (getNode s n).key = k := by
  unfold find at hf
  have h1 := List.mem_of_find?_eq_some hf
  have h2 := List.find?_some hf
  rw [h.buckets_eq _ (get_hash_lt h.cap_pos k)] at h1
  exact ⟨(List.mem_filter.1 h1).1, by simpa using h2⟩

theorem key_inj {s : HM K V} (h : WF s) {m n : Nat} (hm : m ∈ s.seq) (hn : n ∈ s.seq)
    (he : (getNode s m).key = (getNode s n).key) : m = n :=
  List.inj_on_of_nodup_map h.keys_nodup hm hn he

theorem find?_seq_eq {s : HM K V} (h : WF s) {k : K} {n : Nat}
    (hn : n ∈ s.seq) (hk : (getNode s n).key = k) :
    s.seq.find? (fun m => decide ((getNode s m).key = k)) = some n := by
  have hsome : (s.seq.find? (fun m => decide ((getNode s m).key = k))).isSome :=
    List.find?_isSome.2 ⟨n, hn, by simp [hk]⟩
  obtain ⟨m, hm⟩ := Option.isSome_iff_exists.1 hsome
  have h1 := List.mem_of_find?_eq_some hm
  have h2 := List.find?_some hm
  simp only [decide_eq_true_eq] at h2
  rw [hm, key_inj h h1 hn (h2.trans hk.symm)]

theorem lookupVal_entries {s : HM K V} (h : WF s) (k : K) :
    lookupVal s k = mLookup k (entries s) := by
  have hmap : (entries s).find? (fun p => decide (p.1 = k))
      = (s.seq.find? (fun m => decide ((getNode s m).key = k))).map
          (fun n => ((getNode s n).key, (getNode s n).value)) := by
    unfold entries
    rw [List.find?_map]
    rfl
  unfold mLookup
  rw [hmap]
  cases hf : find s k with
  | none =>
    have hseq : s.seq.find? (fun m => decide ((getNode s m).key = k)) = none := by
      rw [List.find?_eq_none]
      intro m hm
      simpa using (find_eq_none_iff h k).1 hf m hm
    simp [lookupVal, hf, hseq]
  | some n =>
    obtain ⟨hn, hk⟩ := find_mem_seq h hf
    rw [find?_seq_eq h hn hk]
    simp [lookupVal, hf]

theorem find_eq_none_iff_mLookup {s : HM K V} (h : WF s) (k : K) :
    find s k = none ↔ mLookup k (entries s) = none := by
  have hl := lookupVal_entries h k
  unfold lookupVal at hl
  constructor
  · intro hf
    rw [hf] at hl
    simpa using hl.symm
  · intro hm
    rw [hm] at hl
    cases hf : find s k with
    | none => rfl
    | some n => rw [hf] at hl; simp at hl

/-! ### The rehash loop -/

/-- Postcondition of the `rehash` loop run over the node list `remaining`,
having already processed `processed`: the store keeps its length, processed
nodes keep key and value and get the recomputed cached index, untouched
nodes are unchanged, and every addressable bucket is exactly the
subsequence of `processed ++ remaining` cached for it. -/
def RehashPost (hasher : K → Nat) (cap : Nat) (remaining processed : List Nat)
    (store : List (NodeData K V)) (bks : List (List Nat))
    (p : List (NodeData K V) × List (List Nat)) : Prop :=
  p.1.length = store.length ∧
  p.2.length = cap ∧
  (∀ n, n ∉ remaining → p.1.getD n default = store.getD n default) ∧
  (∀ n ∈ remaining,
    (p.1.getD n default).key = (store.getD n default).key ∧
    (p.1.getD n default).value = (store.getD n default).value ∧
    (p.1.getD n default).bucket_index = hasher (store.getD n default).key % cap) ∧
  (∀ i < cap, p.2.getD i []
      = (processed ++ remaining).filter
          (fun n => decide ((p.1.getD n default).bucket_index = i)))

theorem rehashFold (hasher : K → Nat) (cap : Nat) (hcap : 0 < cap) :
    ∀ (remaining processed : List Nat) (store : List (NodeData K V))
      (bks : List (List Nat)),
      bks.length = cap →
      (processed ++ remaining).Nodup →
      (∀ n ∈ processed ++ remaining, n < store.length) →
      (∀ i < cap, bks.getD i [] =
          remaining.filter (fun n => decide ((store.getD n default).bucket_index = i))
            ++ processed.filter (fun n => decide ((store.getD n default).bucket_index = i))) →
      RehashPost hasher cap remaining processed store bks
        (remaining.foldl (rehashStep hasher cap) (store, bks)) := by
  intro remaining
  induction remaining with
  | nil =>
    intro processed store bks hlen hnd hlt hbk
    refine ⟨rfl, hlen, fun n _ => rfl, fun n hn => absurd hn (List.not_mem_nil n), ?_⟩
    intro i hi
    rw [List.foldl_nil]
    simpa using hbk i hi
  | cons n rest ih =>
    intro processed store bks hlen hnd hlt hbk
    have hnmem : n ∈ processed ++ n :: rest := List.mem_append_right _ (List.mem_cons_self n rest)
    have hnlt : n < store.length := hlt n hnmem
    have hdisj := List.disjoint_of_nodup_append hnd
    have hnp : n ∉ processed := fun hc => hdisj hc (List.mem_cons_self n rest)
    have hnr : n ∉ rest := ((List.nodup_cons.1 (hnd.of_append_right)).1)
    rcases hget : store.getD n default with ⟨key0, val0, b0⟩
    -- the two components of the loop body at `n`
    have hstore1 : (rehashStep hasher cap (store, bks) n).1
        = store.set n ⟨key0, val0, hasher key0 % cap⟩ := by
      simp only [rehashStep, hget]
    have hbks1 : (rehashStep hasher cap (store, bks) n).2
        = ((if b0 < cap then bks.set b0 (bks.getD b0 []).tail else bks).set
            (hasher key0 % cap)
            (((if b0 < cap then bks.set b0 (bks.getD b0 []).tail else bks).getD
                (hasher key0 % cap) []) ++ [n])) := by
      simp only [rehashStep, hget]
    set newb := hasher key0 % cap with hnb
    set store' := store.set n ⟨key0, val0, newb⟩ with hst
    set bksPop := if b0 < cap then bks.set b0 (bks.getD b0 []).tail else bks with hq
    set bks2 := bksPop.set newb (bksPop.getD newb [] ++ [n]) with hb2
    have hstep : rehashStep hasher cap (store, bks) n = (store', bks2) :=
      Prod.ext_iff.2 ⟨hstore1, hbks1⟩
    have hnewlt : newb < cap := by rw [hnb]; exact Nat.mod_lt _ hcap
    have hPopLen : bksPop.length = cap := by
      rw [hq]
      split <;> simp [hlen]
    have hb2len : bks2.length = cap := by rw [hb2, List.length_set, hPopLen]
    -- store' facts
    have hF1 : ∀ m, m ≠ n → store'.getD m default = store.getD m default := by
      intro m hm
      rw [hst]
      exact getD_set_ne store _ _ (fun he => hm he.symm)
    have hF2 : store'.getD n default = ⟨key0, val0, newb⟩ := by
      rw [hst]
      exact getD_set_self store n _ default hnlt
    -- step A: buckets after the pop, still over the old store
    have hA : ∀ i < cap, bksPop.getD i []
        = rest.filter (fun m => decide ((store.getD m default).bucket_index = i))
          ++ processed.filter (fun m => decide ((store.getD m default).bucket_index = i)) := by
      intro i hi
      by_cases hb : b0 < cap
      · rw [hq, if_pos hb]
        by_cases hib : i = b0
        · rw [hib, getD_set_self bks _ _ [] (by rw [hlen]; exact hb), hbk b0 hb,
            List.filter_cons_of_pos (by rw [hget]; simp), List.cons_append, List.tail_cons]
        · rw [getD_set_ne bks _ _ (fun he => hib he.symm), hbk i hi,
            List.filter_cons_of_neg (by rw [hget]; simp; exact fun he => hib he.symm)]
      · rw [hq, if_neg hb, hbk i hi,
          List.filter_cons_of_neg (by rw [hget]; simp; omega)]
    -- step B: filters over store' agree with filters over store away from n
    have hBrest : ∀ i, rest.filter (fun m => decide ((store'.getD m default).bucket_index = i))
        = rest.filter (fun m => decide ((store.getD m default).bucket_index = i)) := by
      intro i
      refine List.filter_congr (fun m hm => ?_)
      rw [hF1 m (fun he => hnr (he ▸ hm))]
    have hBproc : ∀ i, processed.filter (fun m => decide ((store'.getD m default).bucket_index = i))
        = processed.filter (fun m => decide ((store.getD m default).bucket_index = i)) := by
      intro i
      refine List.filter_congr (fun m hm => ?_)
      rw [hF1 m (fun he => hnp (he ▸ hm))]
    -- step C: buckets after the push_back, over the new store
    have hC : ∀ i < cap, bks2.getD i []
        = rest.filter (fun m => decide ((store'.getD m default).bucket_index = i))
          ++ (processed ++ [n]).filter
              (fun m => decide ((store'.getD m default).bucket_index = i)) := by
      intro i hi
      by_cases hni : i = newb
      · rw [hni, hb2, getD_set_self bksPop _ _ [] (by rw [hPopLen]; exact hnewlt),
          hA newb hnewlt, List.filter_append, hBrest, hBproc,
          List.filter_cons_of_pos (by rw [hF2]; simp), List.filter_nil, List.append_assoc]
      · rw [hb2, getD_set_ne bksPop _ _ (fun he => hni he.symm), hA i hi,
          List.filter_append, hBrest, hBproc,
          List.filter_cons_of_neg (by rw [hF2]; simp; exact fun he => hni he.symm),
          List.filter_nil, List.append_nil]
    -- apply the induction hypothesis
    have hnd' : ((processed ++ [n]) ++ rest).Nodup := by
      rw [List.append_assoc]
      simpa using hnd
    have hlt' : ∀ m ∈ (processed ++ [n]) ++ rest, m < store'.length := by
      intro m hm
      rw [hst, List.length_set]
      refine hlt m ?_
      rw [List.append_assoc] at hm
      simpa using hm
    obtain ⟨p1, p2, p3, p4, p5⟩ := ih (processed ++ [n]) store' bks2 hb2len hnd' hlt' hC
    rw [List.foldl_cons, hstep]
    refine ⟨?_, p2, ?_, ?_, ?_⟩
    · rw [p1, hst, List.length_set]
    · intro m hm
      have hmr : m ∉ rest := fun hc => hm (List.mem_cons_of_mem n hc)
      have hmn : m ≠ n := fun he => hm (he ▸ List.mem_cons_self n rest)
      rw [p3 m hmr, hF1 m hmn]
    · intro m hm
      rcases List.mem_cons.1 hm with hm | hm
      · subst hm
        rw [p3 m hnr, hF2, hget]
        exact ⟨rfl, rfl, hnb⟩
      · have hmn : m ≠ n := fun he => hnr (he ▸ hm)
        obtain ⟨q1, q2, q3⟩ := p4 m hm
        rw [hF1 m hmn] at q1 q2 q3
        exact ⟨q1, q2, q3⟩
    · intro i hi
      rw [p5 i hi, List.append_assoc]
      rfl

/-- What one call to `rehash` does, given the state it is actually called
on: the capacity field holds the new value while the bucket array still has
its old length `L` and the cached indices still point into it.  The order
sequence, size, capacity and allocation length are untouched; every node
keeps its key and value and gets the recomputed cached index; afterwards
every bucket is exactly the subsequence of the order sequence cached for
it (each node was appended at the tail of its new chain in traversal
order). -/
theorem rehash_spec (t : HM K V) (L : Nat)
    (hL : t.buckets.length = L)
    (hcap : 0 < t.capacity)
    (hnodup : t.seq.Nodup)
    (hlt : ∀ n ∈ t.seq, n < t.store.length)
    (hbi : ∀ n ∈ t.seq, (getNode t n).bucket_index < L)
    (hbk : ∀ i < L, bucketAt t i
        = t.seq.filter (fun n => decide ((getNode t n).bucket_index = i))) :
    (rehash t).hasher = t.hasher ∧
    (rehash t).seq = t.seq ∧
    (rehash t).sz = t.sz ∧
    (rehash t).capacity = t.capacity ∧
    (rehash t).store.length = t.store.length ∧
    (rehash t).buckets.length = t.capacity ∧
    (∀ n ∈ t.seq,
      (getNode (rehash t) n).key = (getNode t n).key ∧
      (getNode (rehash t) n).value = (getNode t n).value ∧
      (getNode (rehash t) n).bucket_index = t.hasher (getNode t n).key % t.capacity) ∧
    (∀ n, n ∉ t.seq → getNode (rehash t) n = getNode t n) ∧
    (∀ i < t.capacity, bucketAt (rehash t) i
        = t.seq.filter (fun n => decide ((getNode (rehash t) n).bucket_index = i))) := by
  have hres : ∀ i < t.capacity, (vecResize t.buckets t.capacity).getD i []
      = t.seq.filter (fun n => decide ((t.store.getD n default).bucket_index = i))
        ++ ([] : List Nat).filter
            (fun n => decide ((t.store.getD n default).bucket_index = i)) := by
    intro i hi
    rw [List.filter_nil, List.append_nil]
    rcases Nat.lt_or_ge i L with hiL | hiL
    · rw [getD_vecResize_lt hi (by rw [hL]; exact hiL)]
      have := hbk i hiL
      simp only [getNode, bucketAt] at this
      exact this
    · rw [getD_vecResize_pad (by rw [hL]; exact hiL)]
      symm
      rw [List.filter_eq_nil_iff]
      intro n hn
      have hb := hbi n hn
      simp only [getNode] at hb
      simp only [decide_eq_true_eq]
      omega
  obtain ⟨p1, p2, p3, p4, p5⟩ :=
    rehashFold t.hasher t.capacity hcap t.seq [] t.store (vecResize t.buckets t.capacity)
      (length_vecResize _ _) (by simpa using hnodup)
      (by simpa using fun n hn => hlt n hn) hres
  refine ⟨rfl, rfl, rfl, rfl, ?_, ?_, ?_, ?_, ?_⟩
  · exact p1
  · exact p2
  · intro n hn
    have := p4 n hn
    simp only [getNode] at *
    exact ⟨this.1, this.2.1, this.2.2⟩
  · intro n hn
    have := p3 n hn
    simp only [getNode]
    exact this
  · intro i hi
    have := p5 i hi
    simp only [bucketAt, getNode]
    simpa using this

/-- `rehash` restores the full structural invariant after the capacity
field has been replaced by a new power-of-two value. -/
theorem rehash_WF (s : HM K V) (newCap : Nat) (h : WF s)
    (hpow : ∃ j, newCap = INIT_CAPACITY * 2 ^ j) :
    WF (rehash { s with capacity := newCap }) ∧
    (rehash { s with capacity := newCap }).hasher = s.hasher ∧
    (rehash { s with capacity := newCap }).seq = s.seq ∧
    (rehash { s with capacity := newCap }).sz = s.sz ∧
    (rehash { s with capacity := newCap }).capacity = newCap ∧
    (rehash { s with capacity := newCap }).store.length = s.store.length ∧
    (∀ n ∈ s.seq,
      (getNode (rehash { s with capacity := newCap }) n).key = (getNode s n).key ∧
      (getNode (rehash { s with capacity := newCap }) n).value = (getNode s n).value) := by
  have hcap : 0 < newCap := by
    obtain ⟨j, hj⟩ := hpow
    rw [hj, INIT_CAPACITY]
    positivity
  obtain ⟨r1, r2, r3, r4, r5, r6, r7, r8, r9⟩ :=
    rehash_spec { s with capacity := newCap } s.buckets.length rfl hcap h.seq_nodup
      h.seq_lt (fun n hn => by rw [h.cap_buckets]; exact h.bidx_lt hn)
      (fun i hi => h.buckets_eq i (h.cap_buckets ▸ hi))
  have hkeys : (rehash { s with capacity := newCap }).seq.map
      (fun n => (getNode (rehash { s with capacity := newCap }) n).key)
      = s.seq.map (fun n => (getNode s n).key) := by
    rw [r2]
    exact List.map_congr_left (fun n hn => (r7 n hn).1)
  refine ⟨⟨?_, ?_, ?_, ?_, ?_, ?_, ?_⟩, r1, r2, r3, r4, r5, fun n hn => ⟨(r7 n hn).1, (r7 n hn).2.1⟩⟩
  · rw [r6, r4]
  · rw [r4]
    exact hpow
  · rw [r2]
    exact h.seq_nodup
  · intro n hn
    rw [r2] at hn
    rw [r5]
    exact h.seq_lt n hn
  · rw [hkeys]
    exact h.keys_nodup
  · intro n hn
    rw [r2] at hn
    obtain ⟨hk, hv, hb⟩ := r7 n hn
    rw [hb, hk, r1, r4]
  · intro i hi
    rw [r4] at hi
    rw [r9 i hi, r2]

/-- Everything `check_load_factor` guarantees: it preserves the structural
invariant (whatever the current `sz` is), leaves the order sequence, the
size, every key and every value alone, and moves the capacity exactly as
`capStep` says. -/
theorem check_load_factor_spec (s : HM K V) (h : WF s) :
    WF (check_load_factor s) ∧
    (check_load_factor s).hasher = s.hasher ∧
    (check_load_factor s).seq = s.seq ∧
    (check_load_factor s).sz = s.sz ∧
    (check_load_factor s).capacity = capStep s.sz s.capacity ∧
    (check_load_factor s).store.length = s.store.length ∧
    (∀ n ∈ s.seq,
      (getNode (check_load_factor s) n).key = (getNode s n).key ∧
      (getNode (check_load_factor s) n).value = (getNode s n).value) := by
  obtain ⟨j, hj⟩ := h.cap_pow
  unfold check_load_factor capStep
  by_cases h1 : 7 * s.capacity ≤ 10 * s.sz
  · rw [if_pos h1, if_pos h1]
    obtain ⟨w1, w2, w3, w4, w5, w6, w7⟩ := rehash_WF s (s.capacity * 2) h
      ⟨j + 1, by rw [hj, pow_succ]; ring⟩
    exact ⟨w1, w2, w3, w4, w5, w6, w7⟩
  · rw [if_neg h1, if_neg h1]
    by_cases h2 : INIT_CAPACITY < s.capacity ∧ 40 * s.sz ≤ 7 * s.capacity
    · rw [if_pos h2, if_pos h2]
      have hj1 : 1 ≤ j := by
        rcases Nat.eq_zero_or_pos j with h0 | h0
        · subst h0
          rw [hj] at h2
          simp [INIT_CAPACITY] at h2
        · exact h0
      obtain ⟨w1, w2, w3, w4, w5, w6, w7⟩ := rehash_WF s (s.capacity / 2) h
        ⟨j - 1, by
          rw [hj]
          rcases Nat.exists_eq_add_of_le hj1 with ⟨j', rfl⟩
          have hjj : 1 + j' - 1 = j' := by omega
          rw [hjj, pow_add, pow_one]
          generalize (2 : Nat) ^ j' = x
          rw [INIT_CAPACITY]
          omega⟩
      exact ⟨w1, w2, w3, w4, w5, w6, w7⟩
    · rw [if_neg h2, if_neg h2]
      exact ⟨h, rfl, rfl, rfl, rfl, rfl, fun n _ => ⟨rfl, rfl⟩⟩

/-- Linking a freshly allocated node (the tail of `_insert`, after
`check_load_factor` has run): pushing the node onto the front of its chain
and of the order sequence preserves well-formedness and prepends the pair
to the iteration entries. -/
theorem linkNode_spec (t : HM K V) (h : WF t) (k : K) (v : V)
    (habs : ∀ n ∈ t.seq, (getNode t n).key ≠ k) :
    WF { t with
         store := t.store ++ [⟨k, v, get_hash t k⟩]
         buckets := t.buckets.set (get_hash t k)
           (t.store.length :: bucketAt t (get_hash t k))
         seq := t.store.length :: t.seq } ∧
    entries { t with
         store := t.store ++ [⟨k, v, get_hash t k⟩]
         buckets := t.buckets.set (get_hash t k)
           (t.store.length :: bucketAt t (get_hash t k))
         seq := t.store.length :: t.seq } = (k, v) :: entries t ∧
    getNode { t with
         store := t.store ++ [⟨k, v, get_hash t k⟩]
         buckets := t.buckets.set (get_hash t k)
           (t.store.length :: bucketAt t (get_hash t k))
         seq := t.store.length :: t.seq } t.store.length = ⟨k, v, get_hash t k⟩ := by
  have hidx : get_hash t k < t.capacity := get_hash_lt h.cap_pos k
  have hidxb : get_hash t k < t.buckets.length := by rw [h.cap_buckets]; exact hidx
  have hNnot : t.store.length ∉ t.seq := fun hc => Nat.lt_irrefl _ (h.seq_lt _ hc)
  have hgOld : ∀ n ∈ t.seq,
      (t.store ++ [(⟨k, v, get_hash t k⟩ : NodeData K V)]).getD n default
        = t.store.getD n default :=
    fun n hn => getD_append_left _ (h.seq_lt n hn)
  have hgNew : (t.store ++ [(⟨k, v, get_hash t k⟩ : NodeData K V)]).getD t.store.length default
      = ⟨k, v, get_hash t k⟩ :=
    getD_append_self _ _ _
  refine ⟨⟨?_, h.cap_pow, List.nodup_cons.2 ⟨hNnot, h.seq_nodup⟩, ?_, ?_, ?_, ?_⟩, ?_, ?_⟩
  · show (t.buckets.set (get_hash t k) (t.store.length :: bucketAt t (get_hash t k))).length
      = t.capacity
    rw [List.length_set, h.cap_buckets]
  · intro n hn
    show n < (t.store ++ [(⟨k, v, get_hash t k⟩ : NodeData K V)]).length
    rw [List.length_append]
    rcases List.mem_cons.1 hn with hn | hn
    · simp [hn]
    · have := h.seq_lt n hn
      simp
      omega
  · rw [List.map_cons]
    have hmap : t.seq.map (fun n =>
        ((t.store ++ [(⟨k, v, get_hash t k⟩ : NodeData K V)]).getD n default).key)
        = t.seq.map (fun n => (getNode t n).key) :=
      List.map_congr_left (fun n hn => by rw [hgOld n hn]; rfl)
    refine List.nodup_cons.2 ⟨?_, ?_⟩
    · simp only [getNode]
      rw [hmap]
      intro hc
      obtain ⟨n, hn, he⟩ := List.mem_map.1 hc
      rw [hgNew] at he
      exact habs n hn he
    · simp only [getNode]
      rw [hmap]
      exact h.keys_nodup
  · intro n hn
    rcases List.mem_cons.1 hn with hn | hn
    · subst hn
      simp only [getNode]
      rw [hgNew]
      simp [get_hash]
    · simp only [getNode]
      rw [hgOld n hn]
      exact h.bidx_hash n hn
  · intro i hi
    by_cases hii : i = get_hash t k
    · subst hii
      show (t.buckets.set (get_hash t k)
          (t.store.length :: bucketAt t (get_hash t k))).getD (get_hash t k) [] = _
      rw [getD_set_self _ _ _ _ hidxb,
        List.filter_cons_of_pos (by simp [getNode, hgNew]),
        h.buckets_eq _ hidx]
      congr 1
      refine List.filter_congr (fun n hn => ?_)
      simp only [getNode, hgOld n hn]
    · show (t.buckets.set (get_hash t k)
          (t.store.length :: bucketAt t (get_hash t k))).getD i [] = _
      have hb := h.buckets_eq i hi
      simp only [bucketAt] at hb
      rw [getD_set_ne _ _ _ (fun he => hii he.symm),
        List.filter_cons_of_neg
          (by simp only [getNode, hgNew]; simp; exact fun he => hii he.symm),
        hb]
      refine List.filter_congr (fun n hn => ?_)
      simp only [getNode, hgOld n hn]
  · simp only [entries, List.map_cons]
    congr 1
    · simp only [getNode]
      rw [hgNew]
    · exact List.map_congr_left (fun n hn => by simp only [getNode]; rw [hgOld n hn])
  · simp only [getNode]
    exact hgNew

/-- What `_insert` does on a well-formed state when the key is absent: the
invariant is preserved, the new pair is prepended to the entries, the size
grows by one, and the capacity moves as `capStep` says. -/
theorem insertRaw_spec (s : HM K V) (k : K) (v : V) (h : Inv s)
    (habs : ∀ n ∈ s.seq, (getNode s n).key ≠ k) :
    Inv (insertRaw s k v).1 ∧
    entries (insertRaw s k v).1 = (k, v) :: entries s ∧
    (insertRaw s k v).1.sz = s.sz + 1 ∧
    (insertRaw s k v).1.capacity = capStep (s.sz + 1) s.capacity ∧
    (insertRaw s k v).1.hasher = s.hasher ∧
    (insertRaw s k v).1.seq = (insertRaw s k v).2 :: s.seq ∧
    (getNode (insertRaw s k v).1 (insertRaw s k v).2).key = k ∧
    (getNode (insertRaw s k v).1 (insertRaw s k v).2).value = v := by
  have hWF0 : WF { s with sz := s.sz + 1 } :=
    ⟨h.1.cap_buckets, h.1.cap_pow, h.1.seq_nodup, h.1.seq_lt, h.1.keys_nodup,
      h.1.bidx_hash, h.1.buckets_eq⟩
  obtain ⟨c1, c2, c3, c4, c5, c6, c7⟩ := check_load_factor_spec _ hWF0
  have habs1 : ∀ n ∈ (check_load_factor { s with sz := s.sz + 1 }).seq,
      (getNode (check_load_factor { s with sz := s.sz + 1 }) n).key ≠ k := by
    intro n hn
    rw [c3] at hn
    rw [(c7 n hn).1]
    exact habs n hn
  obtain ⟨w1, w2, w3⟩ := linkNode_spec (check_load_factor { s with sz := s.sz + 1 }) c1 k v habs1
  have hr : (insertRaw s k v).1
      = { check_load_factor { s with sz := s.sz + 1 } with
          store := (check_load_factor { s with sz := s.sz + 1 }).store
            ++ [⟨k, v, get_hash (check_load_factor { s with sz := s.sz + 1 }) k⟩]
          buckets := (check_load_factor { s with sz := s.sz + 1 }).buckets.set
            (get_hash (check_load_factor { s with sz := s.sz + 1 }) k)
            ((check_load_factor { s with sz := s.sz + 1 }).store.length
              :: bucketAt (check_load_factor { s with sz := s.sz + 1 })
                  (get_hash (check_load_factor { s with sz := s.sz + 1 }) k))
          seq := (check_load_factor { s with sz := s.sz + 1 }).store.length
            :: (check_load_factor { s with sz := s.sz + 1 }).seq } := by
    simp only [insertRaw]
  have hr2 : (insertRaw s k v).2
      = (check_load_factor { s with sz := s.sz + 1 }).store.length := by
    simp only [insertRaw]
  have hent1 : entries (check_load_factor { s with sz := s.sz + 1 }) = entries s := by
    unfold entries
    rw [c3]
    exact List.map_congr_left (fun n hn => by rw [(c7 n hn).1, (c7 n hn).2]; rfl)
  refine ⟨⟨by rw [hr]; exact w1, ?_⟩, ?_, ?_, ?_, ?_, ?_, ?_, ?_⟩
  · rw [hr]
    show (check_load_factor { s with sz := s.sz + 1 }).sz
        = ((check_load_factor { s with sz := s.sz + 1 }).store.length
            :: (check_load_factor { s with sz := s.sz + 1 }).seq).length
    rw [c4, List.length_cons, c3]
    show s.sz + 1 = s.seq.length + 1
    rw [h.2]
  · rw [hr, w2, hent1]
  · rw [hr]
    exact c4
  · rw [hr]
    exact c5
  · rw [hr]
    exact c2
  · rw [hr, hr2]
    show _ :: (check_load_factor { s with sz := s.sz + 1 }).seq = _ :: s.seq
    rw [c3]
  · rw [hr, hr2, w3]
  · rw [hr, hr2, w3]

theorem filter_map_comm {α β : Type _} (f : α → β) (p : β → Bool) (l : List α) :
    (l.map f).filter p = (l.filter (fun a => p (f a))).map f := by
  induction l with
  | nil => rfl
  | cons a l ih => by_cases hp : p (f a) <;> simp [List.filter_cons, hp, ih]

theorem filter_erase_comm {l : List Nat} (hnd : l.Nodup) (p : Nat → Bool) (a : Nat) :
    (l.filter p).erase a = (l.erase a).filter p := by
  rw [List.Nodup.erase_eq_filter (hnd.filter p) a, List.Nodup.erase_eq_filter hnd a,
    List.filter_filter, List.filter_filter]
  exact List.filter_congr (fun x _ => Bool.and_comm _ _)

/-- `insert` on an absent key: prepends the pair, grows the size by one and
moves the capacity as `capStep` says. -/
theorem insert_absent_spec (s : HM K V) (k : K) (v : V) (h : Inv s)
    (hf : find s k = none) :
    Inv (insert s k v) ∧
    entries (insert s k v) = (k, v) :: entries s ∧
    (insert s k v).sz = s.sz + 1 ∧
    (insert s k v).capacity = capStep (s.sz + 1) s.capacity ∧
    (insert s k v).hasher = s.hasher := by
  have habs := (find_eq_none_iff h.1 k).1 hf
  have hins : insert s k v = (insertRaw s k v).1 := by
    unfold insert
    rw [hf]
  obtain ⟨w1, w2, w3, w4, w5, _, _, _⟩ := insertRaw_spec s k v h habs
  rw [hins]
  exact ⟨w1, w2, w3, w4, w5⟩

/-- `insert` on a present key is a complete no-op on the state. -/
theorem insert_present (s : HM K V) (k : K) (v : V) {n : Nat}
    (hf : find s k = some n) : insert s k v = s := by
  unfold insert
  rw [hf]

/-- `erase` on an absent key is a complete no-op on the state. -/
theorem erase_absent (s : HM K V) (k : K) (hf : find s k = none) : erase s k = s := by
  unfold find at hf
  simp only [erase]
  rw [hf]

/-- Writing through the reference `operator[]` returns rewrites the mapped
value in place: entries keep their order and `size`, `capacity`, the order
sequence and all other keys are untouched. -/
theorem setValue_spec (s : HM K V) (h : Inv s) {k : K} {n : Nat}
    (hn : n ∈ s.seq) (hk : (getNode s n).key = k) (v : V) :
    Inv (setValue s n v) ∧
    entries (setValue s n v)
      = (entries s).map (fun p => if p.1 = k then (k, v) else p) ∧
    (setValue s n v).sz = s.sz ∧
    (setValue s n v).capacity = s.capacity ∧
    (setValue s n v).hasher = s.hasher ∧
    (setValue s n v).seq = s.seq := by
  have hlt : n < s.store.length := h.1.seq_lt n hn
  have g2 : getNode (setValue s n v) n
      = ⟨(getNode s n).key, v, (getNode s n).bucket_index⟩ := by
    simp only [setValue, getNode]
    rw [getD_set_self _ _ _ _ hlt]
  have g1 : ∀ m, m ≠ n → getNode (setValue s n v) m = getNode s m := by
    intro m hm
    simp only [setValue, getNode]
    rw [getD_set_ne _ _ _ (fun he => hm he.symm)]
  have hkeq : ∀ m ∈ s.seq, (getNode (setValue s n v) m).key = (getNode s m).key := by
    intro m _
    by_cases hmn : m = n
    · subst hmn
      rw [g2]
    · rw [g1 m hmn]
  have hbeq : ∀ m ∈ s.seq,
      (getNode (setValue s n v) m).bucket_index = (getNode s m).bucket_index := by
    intro m _
    by_cases hmn : m = n
    · subst hmn
      rw [g2]
    · rw [g1 m hmn]
  refine ⟨⟨⟨h.1.cap_buckets, h.1.cap_pow, h.1.seq_nodup, ?_, ?_, ?_, ?_⟩, h.2⟩, ?_, rfl, rfl, rfl, rfl⟩
  · intro m hm
    show m < (s.store.set n _).length
    rw [List.length_set]
    exact h.1.seq_lt m hm
  · have hmap : s.seq.map (fun m => (getNode (setValue s n v) m).key)
        = s.seq.map (fun m => (getNode s m).key) :=
      List.map_congr_left hkeq
    show (s.seq.map (fun m => (getNode (setValue s n v) m).key)).Nodup
    rw [hmap]
    exact h.1.keys_nodup
  · intro m hm
    show (getNode (setValue s n v) m).bucket_index
        = s.hasher (getNode (setValue s n v) m).key % s.capacity
    rw [hbeq m hm, hkeq m hm]
    exact h.1.bidx_hash m hm
  · intro i hi
    show bucketAt s i = _
    rw [h.1.buckets_eq i hi]
    refine List.filter_congr (fun m hm => ?_)
    simp only [hbeq m hm]
  · unfold entries
    rw [List.map_map]
    refine List.map_congr_left (fun m hm => ?_)
    by_cases hmn : m = n
    · subst hmn
      simp [g2, hk]
    · have hne : (getNode s m).key ≠ k :=
        fun he => hmn (key_inj h.1 hm hn (he.trans hk.symm))
      simp [g1 m hmn, hne]

/-- `erase` on a present key: the entry disappears from the iteration
sequence (all other entries keeping their order), the size shrinks by one
and the capacity moves as `capStep` says. -/
theorem erase_present_spec (s : HM K V) (h : Inv s) {k : K} {n : Nat}
    (hf : find s k = some n) :
    Inv (erase s k) ∧
    entries (erase s k) = (entries s).filter (fun p => !decide (p.1 = k)) ∧
    (erase s k).sz = s.sz - 1 ∧
    (erase s k).capacity = capStep (s.sz - 1) s.capacity ∧
    (erase s k).hasher = s.hasher := by
  obtain ⟨hn, hk⟩ := find_mem_seq h.1 hf
  have hidx : get_hash s k < s.capacity := get_hash_lt h.1.cap_pos k
  have hidxb : get_hash s k < s.buckets.length := by
    rw [h.1.cap_buckets]
    exact hidx
  have hbi : (getNode s n).bucket_index = get_hash s k := by
    rw [h.1.bidx_hash n hn, hk]
    rfl
  have her : erase s k = check_load_factor
      { s with
        seq := s.seq.erase n
        buckets := s.buckets.set (get_hash s k) ((bucketAt s (get_hash s k)).erase n)
        sz := s.sz - 1 } := by
    unfold find at hf
    simp only [erase]
    rw [hf]
  have hWFt : WF { s with
      seq := s.seq.erase n
      buckets := s.buckets.set (get_hash s k) ((bucketAt s (get_hash s k)).erase n)
      sz := s.sz - 1 } := by
    refine ⟨?_, h.1.cap_pow, List.Nodup.erase n h.1.seq_nodup, ?_, ?_, ?_, ?_⟩
    · show (s.buckets.set _ _).length = s.capacity
      rw [List.length_set]
      exact h.1.cap_buckets
    · intro m hm
      exact h.1.seq_lt m (List.mem_of_mem_erase hm)
    · show ((s.seq.erase n).map (fun m => (getNode s m).key)).Nodup
      exact ((List.erase_sublist n s.seq).map _).nodup h.1.keys_nodup
    · intro m hm
      exact h.1.bidx_hash m (List.mem_of_mem_erase hm)
    · intro i hi
      by_cases hii : i = get_hash s k
      · subst hii
        show (s.buckets.set (get_hash s k) ((bucketAt s (get_hash s k)).erase n)).getD
            (get_hash s k) [] = _
        rw [getD_set_self _ _ _ _ hidxb, h.1.buckets_eq _ hidx,
          filter_erase_comm h.1.seq_nodup]
        refine List.filter_congr (fun m _ => ?_)
        simp only [getNode]
      · show (s.buckets.set (get_hash s k) _).getD i [] = _
        have hb := h.1.buckets_eq i hi
        simp only [bucketAt] at hb
        rw [getD_set_ne _ _ _ (fun he => hii he.symm), hb,
          List.Nodup.erase_eq_filter h.1.seq_nodup n, List.filter_filter]
        symm
        refine List.filter_congr (fun m hm => ?_)
        simp only [getNode]
        by_cases hmn : m = n
        · subst hmn
          have hP : ¬(s.store[m]?.getD default).bucket_index = i := by
            have hbi' := hbi
            simp only [getNode, List.getD_eq_getElem?_getD] at hbi'
            rw [hbi']
            exact fun he => hii he.symm
          simp [hP]
        · simp [hmn]
  have hszt : ({ s with
      seq := s.seq.erase n
      buckets := s.buckets.set (get_hash s k) ((bucketAt s (get_hash s k)).erase n)
      sz := s.sz - 1 } : HM K V).sz
      = ({ s with
      seq := s.seq.erase n
      buckets := s.buckets.set (get_hash s k) ((bucketAt s (get_hash s k)).erase n)
      sz := s.sz - 1 } : HM K V).seq.length := by
    show s.sz - 1 = (s.seq.erase n).length
    rw [List.length_erase, if_pos hn, h.2]
  obtain ⟨c1, c2, c3, c4, c5, c6, c7⟩ := check_load_factor_spec _ hWFt
  have hentt : entries (check_load_factor { s with
      seq := s.seq.erase n
      buckets := s.buckets.set (get_hash s k) ((bucketAt s (get_hash s k)).erase n)
      sz := s.sz - 1 })
      = (entries s).filter (fun p => !decide (p.1 = k)) := by
    unfold entries
    rw [c3]
    have h1 : (s.seq.erase n).map
        (fun m => ((getNode (check_load_factor { s with
          seq := s.seq.erase n
          buckets := s.buckets.set (get_hash s k) ((bucketAt s (get_hash s k)).erase n)
          sz := s.sz - 1 }) m).key,
          (getNode (check_load_factor { s with
          seq := s.seq.erase n
          buckets := s.buckets.set (get_hash s k) ((bucketAt s (get_hash s k)).erase n)
          sz := s.sz - 1 }) m).value))
        = (s.seq.erase n).map (fun m => ((getNode s m).key, (getNode s m).value)) := by
      refine List.map_congr_left (fun m hm => ?_)
      rw [(c7 m hm).1, (c7 m hm).2]
      rfl
    rw [h1, filter_map_comm, List.Nodup.erase_eq_filter h.1.seq_nodup n]
    congr 1
    refine List.filter_congr (fun m hm => ?_)
    by_cases hmn : m = n
    · subst hmn
      simp [hk]
    · have hne : (getNode s m).key ≠ k :=
        fun he => hmn (key_inj h.1 hm hn (he.trans hk.symm))
      simp [hmn, hne]
  rw [her]
  refine ⟨⟨c1, ?_⟩, hentt, c4, c5, c2⟩
  rw [c4, c3]
  exact hszt

/-- The pop-front loop shared by `clear` (and in spirit by `rehash`): when
every addressable bucket is exactly the filter of the visited list for it,
popping the front of each visited node's bucket in order empties every
bucket. -/
theorem popFold (f : Nat → Nat) :
    ∀ (l : List Nat) (bks : List (List Nat)),
      l.Nodup →
      (∀ i < bks.length, bks.getD i [] = l.filter (fun n => decide (f n = i))) →
      ((l.foldl (fun bks n => bks.set (f n) (bks.getD (f n) []).tail) bks).length
          = bks.length) ∧
      (∀ i < bks.length,
        (l.foldl (fun bks n => bks.set (f n) (bks.getD (f n) []).tail) bks).getD i []
          = []) := by
  intro l
  induction l with
  | nil =>
    intro bks _ hbk
    refine ⟨rfl, fun i hi => ?_⟩
    rw [List.foldl_nil, hbk i hi, List.filter_nil]
  | cons n rest ih =>
    intro bks hnd hbk
    have hnr : n ∉ rest := (List.nodup_cons.1 hnd).1
    have hstep : ∀ i < bks.length,
        (bks.set (f n) (bks.getD (f n) []).tail).getD i []
          = rest.filter (fun m => decide (f m = i)) := by
      intro i hi
      by_cases hfn : f n = i
      · rw [← hfn] at hi ⊢
        rw [getD_set_self _ _ _ _ hi, hbk _ hi,
          List.filter_cons_of_pos (by simp), List.tail_cons]
      · rw [getD_set_ne _ _ _ hfn, hbk i hi,
          List.filter_cons_of_neg (by simp; exact hfn)]
    have hlen : (bks.set (f n) (bks.getD (f n) []).tail).length = bks.length :=
      List.length_set _ _ _
    obtain ⟨p1, p2⟩ := ih (bks.set (f n) (bks.getD (f n) []).tail)
      (List.nodup_cons.1 hnd).2 (by rw [hlen]; exact hstep)
    rw [List.foldl_cons]
    exact ⟨p1.trans hlen, fun i hi => p2 i (by rw [hlen]; exact hi)⟩

theorem vecResize_all_nil {l : List (List Nat)} {n : Nat}
    (hall : ∀ i < l.length, l.getD i [] = []) (hn : n ≤ l.length) :
    vecResize l n = List.replicate n [] := by
  refine List.ext_getElem (by rw [length_vecResize, List.length_replicate]) ?_
  intro i h1 h2
  rw [length_vecResize] at h1
  have hv : (vecResize l n).getD i [] = [] := by
    rw [getD_vecResize_lt h1 (lt_of_lt_of_le h1 hn)]
    exact hall i (lt_of_lt_of_le h1 hn)
  rw [← List.getD_eq_getElem _ ([] : List Nat), hv, List.getElem_replicate]

/-- Everything `clear` guarantees on an invariant state: the order sequence
and the entries become empty, the size is zero, the capacity and the bucket
array are reset to a fresh `INIT_CAPACITY` state, and `find` misses every
key. -/
theorem clear_spec (s : HM K V) (h : Inv s) :
    (clear s).seq = [] ∧
    (clear s).sz = 0 ∧
    (clear s).capacity = INIT_CAPACITY ∧
    (clear s).buckets = List.replicate INIT_CAPACITY [] ∧
    (clear s).hasher = s.hasher ∧
    entries (clear s) = [] ∧
    Inv (clear s) ∧
    (∀ k, find (clear s) k = none) := by
  obtain ⟨p1, p2⟩ := popFold (fun n => (getNode s n).bucket_index) s.seq s.buckets
    h.1.seq_nodup
    (by
      intro i hi
      have hb := h.1.buckets_eq i (by rw [← h.1.cap_buckets]; exact hi)
      simp only [bucketAt] at hb
      exact hb)
  have hcap16 : INIT_CAPACITY ≤ s.buckets.length := by
    rw [h.1.cap_buckets]
    exact h.1.cap_init_le
  have hbuckets : (clear s).buckets = List.replicate INIT_CAPACITY [] := by
    show vecResize _ INIT_CAPACITY = _
    refine vecResize_all_nil ?_ (by rw [p1]; exact hcap16)
    intro i hi
    rw [p1] at hi
    exact p2 i hi
  have hseq : (clear s).seq = [] := by rfl
  have hsz : (clear s).sz = 0 := by rfl
  have hcap : (clear s).capacity = INIT_CAPACITY := by rfl
  have hhash : (clear s).hasher = s.hasher := by rfl
  have hent : entries (clear s) = [] := by rfl
  have hWF : WF (clear s) := by
    refine ⟨?_, ?_, ?_, ?_, ?_, ?_, ?_⟩
    · rw [hbuckets, List.length_replicate, hcap]
    · rw [hcap]
      exact ⟨0, by norm_num⟩
    · rw [hseq]
      exact List.nodup_nil
    · intro m hm
      rw [hseq] at hm
      cases hm
    · rw [hseq]
      exact List.nodup_nil
    · intro m hm
      rw [hseq] at hm
      cases hm
    · intro i hi
      rw [hcap] at hi
      unfold bucketAt
      rw [hbuckets, hseq, List.getD_eq_getElem?_getD, List.getElem?_replicate, if_pos hi]
      rfl
  have hfind : ∀ k, find (clear s) k = none := by
    intro k
    unfold find bucketAt
    rw [hbuckets, List.getD_eq_getElem?_getD, List.getElem?_replicate]
    split <;> rfl
  exact ⟨hseq, hsz, hcap, hbuckets, hhash, hent, ⟨hWF, by rw [hsz, hseq]; rfl⟩, hfind⟩

theorem inv_mk (hasher : K → Nat) : Inv (mkHashMap (K := K) (V := V) hasher) := by
  refine ⟨⟨?_, ⟨0, by rfl⟩, List.nodup_nil, ?_, ?_, ?_, ?_⟩, rfl⟩
  · show (List.replicate INIT_CAPACITY ([] : List Nat)).length = INIT_CAPACITY
    rw [List.length_replicate]
  · intro m hm
    cases hm
  · show (([] : List Nat).map _).Nodup
    exact List.nodup_nil
  · intro m hm
    cases hm
  · intro i hi
    have hi' : i < INIT_CAPACITY := hi
    show (List.replicate INIT_CAPACITY ([] : List Nat)).getD i [] = _
    rw [List.getD_eq_getElem?_getD, List.getElem?_replicate, if_pos hi']
    rfl

theorem entries_mk (hasher : K → Nat) : entries (mkHashMap (K := K) (V := V) hasher) = [] := rfl

theorem opIndexTouch_eq_insert (s : HM K V) (k : K) :
    opIndexTouch s k = insert s k default := rfl

/-- `operator[]` on an absent key followed by a write through the returned
reference: the pair `(k, v)` ends up at the head of the entries. -/
theorem opIndexAssign_absent_spec (s : HM K V) (k : K) (v : V) (h : Inv s)
    (hf : find s k = none) :
    Inv (opIndexAssign s k v) ∧ entries (opIndexAssign s k v) = (k, v) :: entries s := by
  have habs := (find_eq_none_iff h.1 k).1 hf
  obtain ⟨w1, w2, w3, w4, w5, w6, w7, w8⟩ := insertRaw_spec s k default h habs
  have hob : opIndexAssign s k v
      = setValue (insertRaw s k default).1 (insertRaw s k default).2 v := by
    unfold opIndexAssign
    rw [hf]
  have hmem : (insertRaw s k default).2 ∈ (insertRaw s k default).1.seq := by
    rw [w6]
    exact List.mem_cons_self _ _
  obtain ⟨q1, q2, q3, q4, q5, q6⟩ :=
    setValue_spec (insertRaw s k default).1 w1 hmem w7 v
  rw [hob]
  refine ⟨q1, ?_⟩
  rw [q2, w2, List.map_cons]
  have hknot : ∀ p ∈ entries s, p.1 ≠ k := by
    intro p hp
    obtain ⟨m, hm, rfl⟩ := List.mem_map.1 hp
    exact habs m hm
  have hmap : (entries s).map (fun p => if p.1 = k then (k, v) else p) = entries s := by
    have hcongr := List.map_congr_left
      (f := fun p : K × V => if p.1 = k then (k, v) else p) (g := id)
      (fun p hp => by
        show (if p.1 = k then (k, v) else p) = p
        rw [if_neg (hknot p hp)])
    rw [hcongr, List.map_id]
  rw [hmap]
  congr 1
  simp

/-- One public mutating operation refines one step of the abstract
most-recently-inserted-first association-list model, and preserves the
invariant. -/
theorem applyOp_spec (s : HM K V) (h : Inv s) (op : Op K V) :
    Inv (applyOp s op) ∧ entries (applyOp s op) = mStep (entries s) op := by
  cases op with
  | ins k v =>
    cases hf : find s k with
    | some n =>
      have hm : (mLookup k (entries s)).isSome = true := by
        cases hml : mLookup k (entries s) with
        | none =>
          rw [(find_eq_none_iff_mLookup h.1 k).2 hml] at hf
          cases hf
        | some _ => rfl
      show Inv (insert s k v) ∧ entries (insert s k v)
          = if (mLookup k (entries s)).isSome then entries s else (k, v) :: entries s
      rw [insert_present s k v hf, if_pos hm]
      exact ⟨h, rfl⟩
    | none =>
      have hm : ¬(mLookup k (entries s)).isSome = true := by
        rw [(find_eq_none_iff_mLookup h.1 k).1 hf]
        simp
      obtain ⟨w1, w2, _, _, _⟩ := insert_absent_spec s k v h hf
      show Inv (insert s k v) ∧ entries (insert s k v)
          = if (mLookup k (entries s)).isSome then entries s else (k, v) :: entries s
      rw [if_neg hm]
      exact ⟨w1, w2⟩
  | ers k =>
    cases hf : find s k with
    | some n =>
      obtain ⟨w1, w2, _, _, _⟩ := erase_present_spec s h hf
      exact ⟨w1, w2⟩
    | none =>
      show Inv (erase s k) ∧ entries (erase s k)
          = (entries s).filter (fun p => !decide (p.1 = k))
      rw [erase_absent s k hf]
      refine ⟨h, ?_⟩
      symm
      rw [List.filter_eq_self]
      intro p hp
      obtain ⟨m, hm, rfl⟩ := List.mem_map.1 hp
      simp [(find_eq_none_iff h.1 k).1 hf m hm]
  | clr =>
    obtain ⟨_, _, _, _, _, hent, hinv, _⟩ := clear_spec s h
    exact ⟨hinv, hent⟩
  | idxTouch k =>
    rw [show applyOp s (Op.idxTouch k) = opIndexTouch s k from rfl,
      opIndexTouch_eq_insert]
    cases hf : find s k with
    | some n =>
      have hm : (mLookup k (entries s)).isSome = true := by
        cases hml : mLookup k (entries s) with
        | none =>
          rw [(find_eq_none_iff_mLookup h.1 k).2 hml] at hf
          cases hf
        | some _ => rfl
      show Inv (insert s k default) ∧ entries (insert s k default)
          = if (mLookup k (entries s)).isSome then entries s else (k, default) :: entries s
      rw [insert_present s k default hf, if_pos hm]
      exact ⟨h, rfl⟩
    | none =>
      have hm : ¬(mLookup k (entries s)).isSome = true := by
        rw [(find_eq_none_iff_mLookup h.1 k).1 hf]
        simp
      obtain ⟨w1, w2, _, _, _⟩ := insert_absent_spec s k default h hf
      show Inv (insert s k default) ∧ entries (insert s k default)
          = if (mLookup k (entries s)).isSome then entries s else (k, default) :: entries s
      rw [if_neg hm]
      exact ⟨w1, w2⟩
  | idxAssign k v =>
    cases hf : find s k with
    | some n =>
      obtain ⟨hn, hk⟩ := find_mem_seq h.1 hf
      have hob : opIndexAssign s k v = setValue s n v := by
        unfold opIndexAssign
        rw [hf]
      have hm : (mLookup k (entries s)).isSome = true := by
        cases hml : mLookup k (entries s) with
        | none =>
          rw [(find_eq_none_iff_mLookup h.1 k).2 hml] at hf
          cases hf
        | some _ => rfl
      obtain ⟨q1, q2, _, _, _, _⟩ := setValue_spec s h hn hk v
      show Inv (opIndexAssign s k v) ∧ entries (opIndexAssign s k v)
          = if (mLookup k (entries s)).isSome
            then (entries s).map (fun p => if p.1 = k then (k, v) else p)
            else (k, v) :: entries s
      rw [hob, if_pos hm]
      exact ⟨q1, q2⟩
    | none =>
      have hm : ¬(mLookup k (entries s)).isSome = true := by
        rw [(find_eq_none_iff_mLookup h.1 k).1 hf]
        simp
      obtain ⟨q1, q2⟩ := opIndexAssign_absent_spec s k v h hf
      show Inv (opIndexAssign s k v) ∧ entries (opIndexAssign s k v)
          = if (mLookup k (entries s)).isSome
            then (entries s).map (fun p => if p.1 = k then (k, v) else p)
            else (k, v) :: entries s
      rw [if_neg hm]
      exact ⟨q1, q2⟩

/-- A run of public operations refines the abstract model run, from any
invariant state. -/
theorem runOps_spec (ops : List (Op K V)) : ∀ s : HM K V, Inv s →
    Inv (runOps s ops) ∧ entries (runOps s ops) = mRun ops (entries s) := by
  induction ops with
  | nil => exact fun s h => ⟨h, rfl⟩
  | cons op ops ih =>
    intro s h
    obtain ⟨h1, h2⟩ := applyOp_spec s h op
    obtain ⟨g1, g2⟩ := ih _ h1
    refine ⟨g1, ?_⟩
    show entries (runOps (applyOp s op) ops) = mRun ops (mStep (entries s) op)
    rw [g2, h2]

/-! ### Runs of inserts and erases, with size and capacity tracking -/

/-- The `insert` operations for a list of pairs. -/
def insOps (ps : List (K × V)) : List (Op K V) := ps.map (fun p => Op.ins p.1 p.2)

/-- The `erase` operations for a list of keys. -/
def ersOps (ks : List K) : List (Op K V) := ks.map Op.ers

/-- Capacity evolution across `m` fresh inserts starting at size `sz`. -/
def capIterIns (sz cap : Nat) : Nat → Nat
  | 0 => cap
  | m + 1 => capIterIns (sz + 1) (capStep (sz + 1) cap) m

/-- Capacity evolution across `m` erases of present keys starting at size
`sz`. -/
def capIterErs (sz cap : Nat) : Nat → Nat
  | 0 => cap
  | m + 1 => capIterErs (sz - 1) (capStep (sz - 1) cap) m

theorem keys_entries (s : HM K V) :
    (entries s).map Prod.fst = s.seq.map (fun n => (getNode s n).key) := by
  unfold entries
  rw [List.map_map]
  rfl

theorem find_eq_none_iff_keys {s : HM K V} (h : WF s) (k : K) :
    find s k = none ↔ k ∉ (entries s).map Prod.fst := by
  rw [find_eq_none_iff h]
  constructor
  · intro hall hc
    rw [keys_entries] at hc
    obtain ⟨n, hn, he⟩ := List.mem_map.1 hc
    exact hall n hn he
  · intro hc n hn he
    refine hc ?_
    rw [keys_entries]
    exact List.mem_map.2 ⟨n, hn, he⟩

theorem find_ne_none_iff_keys {s : HM K V} (h : WF s) (k : K) :
    find s k ≠ none ↔ k ∈ (entries s).map Prod.fst := by
  constructor
  · intro hne
    by_contra hc
    exact hne ((find_eq_none_iff_keys h k).2 hc)
  · intro hmem hc
    exact (find_eq_none_iff_keys h k).1 hc hmem

/-- A run of inserts of fresh, pairwise-distinct keys: each pair is
prepended in turn, the size grows by the count, and the capacity follows
`capIterIns`. -/
theorem insertList_spec (ps : List (K × V)) : ∀ s : HM K V, Inv s →
    (ps.map Prod.fst).Nodup →
    (∀ p ∈ ps, find s p.1 = none) →
    Inv (runOps s (insOps ps)) ∧
    entries (runOps s (insOps ps)) = ps.reverse ++ entries s ∧
    (runOps s (insOps ps)).sz = s.sz + ps.length ∧
    (runOps s (insOps ps)).capacity = capIterIns s.sz s.capacity ps.length := by
  induction ps with
  | nil =>
    intro s h _ _
    exact ⟨h, by simp [insOps, runOps], rfl, rfl⟩
  | cons p rest ih =>
    intro s h hnd habs
    obtain ⟨w1, w2, w3, w4, _⟩ := insert_absent_spec s p.1 p.2 h (habs p (by simp))
    have hkeys1 : (entries (insert s p.1 p.2)).map Prod.fst
        = p.1 :: (entries s).map Prod.fst := by
      rw [w2, List.map_cons]
    have hnd2 : (p.1 :: rest.map Prod.fst).Nodup := by
      rw [List.map_cons] at hnd
      exact hnd
    have habs' : ∀ q ∈ rest, find (insert s p.1 p.2) q.1 = none := by
      intro q hq
      rw [find_eq_none_iff_keys w1.1, hkeys1]
      have h1 : q.1 ≠ p.1 := by
        intro he
        refine (List.nodup_cons.1 hnd2).1 ?_
        rw [← he]
        exact List.mem_map.2 ⟨q, hq, rfl⟩
      have h2 : q.1 ∉ (entries s).map Prod.fst :=
        (find_eq_none_iff_keys h.1 q.1).1 (habs q (by simp [hq]))
      simp [h1, h2]
    have hnd' : (rest.map Prod.fst).Nodup := (List.nodup_cons.1 hnd2).2
    obtain ⟨g1, g2, g3, g4⟩ := ih (insert s p.1 p.2) w1 hnd' habs'
    have hrun : runOps s (insOps (p :: rest)) = runOps (insert s p.1 p.2) (insOps rest) := rfl
    rw [hrun]
    refine ⟨g1, ?_, ?_, ?_⟩
    · rw [g2, w2, List.reverse_cons, List.append_assoc]
      rfl
    · rw [g3, w3, List.length_cons]
      omega
    · rw [g4, w3, w4]
      rfl

/-- A run of erases of present, pairwise-distinct keys: exactly those keys
disappear from the entries, the size shrinks by the count, and the capacity
follows `capIterErs`. -/
theorem eraseList_spec (ks : List K) : ∀ s : HM K V, Inv s →
    ks.Nodup →
    (∀ k ∈ ks, find s k ≠ none) →
    Inv (runOps s (ersOps ks)) ∧
    entries (runOps s (ersOps ks))
      = (entries s).filter (fun p => decide (p.1 ∉ ks)) ∧
    (runOps s (ersOps ks)).sz = s.sz - ks.length ∧
    (runOps s (ersOps ks)).capacity = capIterErs s.sz s.capacity ks.length := by
  induction ks with
  | nil =>
    intro s h _ _
    refine ⟨h, ?_, rfl, rfl⟩
    show entries s = (entries s).filter (fun p => decide (p.1 ∉ ([] : List K)))
    symm
    rw [List.filter_eq_self]
    intro p _
    simp
  | cons k rest ih =>
    intro s h hnd hpres
    obtain ⟨n, hfk⟩ : ∃ n, find s k = some n := by
      cases hfk : find s k with
      | none => exact absurd hfk (hpres k (by simp))
      | some n => exact ⟨n, rfl⟩
    obtain ⟨w1, w2, w3, w4, _⟩ := erase_present_spec s h hfk
    have hpres' : ∀ k' ∈ rest, find (erase s k) k' ≠ none := by
      intro k' hk'
      have hk'k : k' ≠ k := fun he => (List.nodup_cons.1 hnd).1 (he ▸ hk')
      rw [find_ne_none_iff_keys w1.1, w2]
      have hmem : k' ∈ (entries s).map Prod.fst :=
        (find_ne_none_iff_keys h.1 k').1 (hpres k' (by simp [hk']))
      obtain ⟨q, hq, hq1⟩ := List.mem_map.1 hmem
      refine List.mem_map.2 ⟨q, List.mem_filter.2 ⟨hq, ?_⟩, hq1⟩
      simp [hq1, hk'k]
    obtain ⟨g1, g2, g3, g4⟩ := ih (erase s k) w1 (List.nodup_cons.1 hnd).2 hpres'
    have hrun : runOps s (ersOps (k :: rest)) = runOps (erase s k) (ersOps rest) := rfl
    rw [hrun]
    refine ⟨g1, ?_, ?_, ?_⟩
    · rw [g2, w2, List.filter_filter]
      refine List.filter_congr (fun p _ => ?_)
      by_cases h1 : p.1 = k
      · simp [h1]
      · by_cases h2 : p.1 ∈ rest <;> simp [h1, h2]
    · rw [g3, w3, List.length_cons]
      omega
    · rw [g4, w3, w4]
      rfl

/-! ### Operations that leave a given key alone (for the persistence claim) -/

/-- The public operations that neither erase the key `k` nor overwrite its
value through `operator[]` (and do not clear the container). -/
def opAvoids (k : K) : Op K V → Prop
  | .ins _ _ => True
  | .ers k' => k' ≠ k
  | .clr => False
  | .idxTouch _ => True
  | .idxAssign k' _ => k' ≠ k

instance decOpAvoids (k : K) : ∀ op : Op K V, Decidable (opAvoids k op)
  | .ins _ _ => .isTrue trivial
  | .ers k' => inferInstanceAs (Decidable (k' ≠ k))
  | .clr => .isFalse (fun hc => hc)
  | .idxTouch _ => .isTrue trivial
  | .idxAssign k' _ => inferInstanceAs (Decidable (k' ≠ k))

theorem mLookup_mStep_avoid (k : K) (v : V) (l : List (K × V)) (op : Op K V)
    (hav : opAvoids k op) (hl : mLookup k l = some v) :
    mLookup k (mStep l op) = some v := by
  cases op with
  | ins k' v' =>
    show mLookup k (if (mLookup k' l).isSome then l else (k', v') :: l) = some v
    by_cases hp : (mLookup k' l).isSome = true
    · rw [if_pos hp]
      exact hl
    · rw [if_neg hp]
      have hkk : k' ≠ k := by
        intro he
        rw [he, hl] at hp
        exact hp rfl
      rw [mLookup_cons_ne _ _ _ _ hkk]
      exact hl
  | ers k' =>
    show mLookup k (l.filter (fun p => !decide (p.1 = k'))) = some v
    rw [mLookup_filter_ne _ _ _ hav]
    exact hl
  | clr => cases hav
  | idxTouch k' =>
    show mLookup k (if (mLookup k' l).isSome then l else (k', default) :: l) = some v
    by_cases hp : (mLookup k' l).isSome = true
    · rw [if_pos hp]
      exact hl
    · rw [if_neg hp]
      have hkk : k' ≠ k := by
        intro he
        rw [he, hl] at hp
        exact hp rfl
      rw [mLookup_cons_ne _ _ _ _ hkk]
      exact hl
  | idxAssign k' v' =>
    show mLookup k (if (mLookup k' l).isSome
        then l.map (fun p => if p.1 = k' then (k', v') else p)
        else (k', v') :: l) = some v
    by_cases hp : (mLookup k' l).isSome = true
    · rw [if_pos hp, mLookup_map_update_ne _ _ _ _ hav]
      exact hl
    · rw [if_neg hp, mLookup_cons_ne _ _ _ _ hav]
      exact hl

theorem mLookup_mRun_avoid (k : K) (v : V) (ops : List (Op K V)) :
    ∀ l : List (K × V), mLookup k l = some v → (∀ op ∈ ops, opAvoids k op) →
    mLookup k (mRun ops l) = some v := by
  induction ops with
  | nil => exact fun l hl _ => hl
  | cons op ops ih =>
    intro l hl hav
    show mLookup k (mRun ops (mStep l op)) = some v
    exact ih _ (mLookup_mStep_avoid k v l op (hav op (by simp)) hl) (fun o ho => hav o (by simp [ho]))

/-- A successful lookup gives the dereferenced `find` iterator and the `at`
result. -/
theorem lookupVal_some_elim {s : HM K V} (h : WF s) {k : K} {v : V}
    (hl : lookupVal s k = some v) :
    findPair s k = some (k, v) ∧ atKey s k = .ok v := by
  unfold lookupVal at hl
  cases hf : find s k with
  | none => rw [hf] at hl; cases hl
  | some n =>
    rw [hf] at hl
    simp at hl
    obtain ⟨hn, hk⟩ := find_mem_seq h hf
    constructor
    · unfold findPair
      rw [hf]
      simp [hk, hl]
    · unfold atKey
      rw [hf]
      simp [hl]

/-! ### Auxiliary facts for the claims -/

theorem find_mk_none (hasher : K → Nat) (k : K) :
    find (mkHashMap (K := K) (V := V) hasher) k = none :=
  (find_eq_none_iff (inv_mk hasher).1 k).2 (fun n hn => absurd hn (List.not_mem_nil n))

theorem totalChain_eq {s : HM K V} (h : WF s) :
    (s.buckets.map List.length).sum = s.seq.length := by
  have hbk : s.buckets = (List.range s.capacity).map
      (fun i => s.seq.filter (fun n => decide ((getNode s n).bucket_index = i))) := by
    refine List.ext_getElem (by rw [h.cap_buckets, List.length_map, List.length_range]) ?_
    intro i h1 h2
    have hi : i < s.capacity := by rw [← h.cap_buckets]; exact h1
    have hb := h.buckets_eq i hi
    simp only [bucketAt] at hb
    rw [← List.getD_eq_getElem s.buckets [] h1, hb, List.getElem_map, List.getElem_range]
  rw [hbk, List.map_map]
  exact sum_filter_count s.capacity (fun n => (getNode s n).bucket_index) s.seq
    (fun n hn => h.bidx_lt hn)

theorem count_bucket {s : HM K V} (h : WF s) {n : Nat} (hn : n ∈ s.seq) (i : Nat) :
    (bucketAt s i).count n
      = if i = s.hasher (getNode s n).key % s.capacity then 1 else 0 := by
  rcases Nat.lt_or_ge i s.capacity with hi | hi
  · rw [h.buckets_eq i hi]
    by_cases hii : i = s.hasher (getNode s n).key % s.capacity
    · rw [if_pos hii]
      have hmem : n ∈ s.seq.filter (fun m => decide ((getNode s m).bucket_index = i)) := by
        refine List.mem_filter.2 ⟨hn, ?_⟩
        simp [h.bidx_hash n hn, hii]
      exact List.count_eq_one_of_mem (h.seq_nodup.filter _) hmem
    · rw [if_neg hii]
      refine List.count_eq_zero.2 ?_
      intro hc
      have := (List.mem_filter.1 hc).2
      simp only [decide_eq_true_eq] at this
      rw [h.bidx_hash n hn] at this
      exact hii this.symm
  · have hnil : bucketAt s i = [] := by
      unfold bucketAt
      exact getD_of_length_le _ (by rw [h.cap_buckets]; exact hi)
    have hne : i ≠ s.hasher (getNode s n).key % s.capacity := by
      have := Nat.mod_lt (s.hasher (getNode s n).key) h.cap_pos
      omega
    rw [hnil, if_neg hne]
    rfl

/-- Modelled from the spec: §4.1 words the rehash loop as "insert it at the
head of the new chain"; this is that algorithm — identical to the source's
`rehashStep` except that the node is pushed at the FRONT of its new bucket
chain instead of appended at the back.  It exists only to compare the
claim's wording with the source. -/
def rehashHeadStep (hasher : K → Nat) (cap : Nat)
    (acc : List (NodeData K V) × List (List Nat)) (n : Nat) :
    List (NodeData K V) × List (List Nat) :=
  let store := acc.1
  let bks := acc.2
  let nd := store.getD n default
  let bks :=
    if nd.bucket_index < cap then
      bks.set nd.bucket_index (bks.getD nd.bucket_index []).tail
    else bks
  let newIdx := hasher nd.key % cap
  let store := store.set n { nd with bucket_index := newIdx }
  let bks := bks.set newIdx (n :: bks.getD newIdx [])
  (store, bks)

/-- Modelled from the spec: `rehash` with head insertion into the new
chains, as the claim describes it. -/
def rehashHead (s : HM K V) : HM K V :=
  let bks0 := vecResize s.buckets s.capacity
  let p := s.seq.foldl (rehashHeadStep s.hasher s.capacity) (s.store, bks0)
  { s with store := p.1, buckets := p.2 }

/-! ### Concrete states for witnesses -/

/-- The identity hash on `Nat`, used in concrete scenarios. -/
def idHasher : Nat → Nat := fun n => n

/-- Twelve pairs `(i, i)` with distinct keys. -/
def pairs12 : List (Nat × Nat) := (List.range 12).map (fun i => (i, i))

/-- The state after inserting `pairs12` into a fresh map: 12 entries at
capacity 32. -/
def s12 : HM Nat Nat := runOps (mkHashMap idHasher) (insOps pairs12)

/-- The exact state `rehash` receives while the 12th insert (with an
all-collide hash) runs: eleven nodes in bucket 0, `sz` already incremented
to 12, the capacity field already doubled to 32, the bucket array still of
length 16. -/
def c8State : HM Nat Nat :=
  { runOps (mkHashMap (fun _ => 0)) (insOps ((List.range 11).map (fun i => (i, i)))) with
    sz := 12
    capacity := 32 }

/-! ### The claims -/

/-- C1: after `insert(k, v)` succeeds (k was previously absent), `find(k)`
dereferences to the pair `(k, v)` and `at(k)` returns `v` after every
subsequent run of public operations that does not erase `k`, clear the map,
or overwrite `k` through `operator[]` — in particular the binding survives
any number of grow/shrink rehashes triggered in between (prefixes of `ops`
are themselves such runs, so the property holds after every intermediate
operation as well). -/
theorem claim_C1 (s : HM K V) (k : K) (v : V) (ops : List (Op K V))
    (h : Inv s) (habs : find s k = none) (hav : ∀ op ∈ ops, opAvoids k op) :
    findPair (runOps (insert s k v) ops) k = some (k, v) ∧
    atKey (runOps (insert s k v) ops) k = .ok v := by
  obtain ⟨w1, w2, _, _, _⟩ := insert_absent_spec s k v h habs
  obtain ⟨g1, g2⟩ := runOps_spec ops (insert s k v) w1
  have hl : lookupVal (runOps (insert s k v) ops) k = some v := by
    rw [lookupVal_entries g1.1, g2]
    refine mLookup_mRun_avoid k v ops _ ?_ hav
    rw [w2]
    exact mLookup_cons_self k v (entries s)
  exact lookupVal_some_elim g1.1 hl

theorem claim_C1_witness :
    findPair (runOps (insert (mkHashMap (V := Nat) idHasher) 5 7)
      [Op.ins 1 2, Op.idxTouch 5, Op.ers 1, Op.idxAssign 2 9]) 5 = some (5, 7) ∧
    atKey (runOps (insert (mkHashMap (V := Nat) idHasher) 5 7)
      [Op.ins 1 2, Op.idxTouch 5, Op.ers 1, Op.idxAssign 2 9]) 5 = .ok 7 :=
  claim_C1 (mkHashMap idHasher) 5 7 _ (inv_mk idHasher) (by decide) (by decide)

/-- C2: after every sequence of public operations starting from a fresh
map, `size()` equals the number of nodes in the order sequence, which
equals the total number of nodes across all bucket chains; no two nodes
have equal keys; and every node appears in exactly one chain — the chain
whose array index equals `hash(node.key) mod capacity` — exactly once. -/
theorem claim_C2 (hasher : K → Nat) (ops : List (Op K V)) :
    size (runOps (mkHashMap hasher) ops) = (runOps (mkHashMap hasher) ops).seq.length ∧
    ((runOps (mkHashMap hasher) ops).buckets.map List.length).sum
      = (runOps (mkHashMap hasher) ops).seq.length ∧
    ((runOps (mkHashMap hasher) ops).seq.map
      (fun n => (getNode (runOps (mkHashMap hasher) ops) n).key)).Nodup ∧
    (∀ n ∈ (runOps (mkHashMap hasher) ops).seq, ∀ i : Nat,
      (bucketAt (runOps (mkHashMap hasher) ops) i).count n
        = if i = (runOps (mkHashMap hasher) ops).hasher
              ((getNode (runOps (mkHashMap hasher) ops) n).key)
              % (runOps (mkHashMap hasher) ops).capacity
          then 1 else 0) := by
  obtain ⟨g1, _⟩ := runOps_spec ops (mkHashMap hasher) (inv_mk hasher)
  exact ⟨g1.2, totalChain_eq g1.1, g1.1.keys_nodup,
    fun n hn i => count_bucket g1.1 hn i⟩

/-- C3: iterating from `begin()` to `end()` visits exactly the live entries
in most-recently-inserted-first order — formally, the entries of any run of
public operations from a fresh map coincide with the run of the abstract
head-insertion model; in particular inserting `(1,"a")`, `(2,"b")`,
`(3,"c")` in that order and iterating yields `(3,"c")`, `(2,"b")`,
`(1,"a")` for every hash function. -/
theorem claim_C3 (hasher : K → Nat) (ops : List (Op K V)) :
    entries (runOps (mkHashMap hasher) ops) = mRun ops [] ∧
    (∀ h2 : Nat → Nat,
      entries (runOps (mkHashMap (V := String) h2)
        [Op.ins 1 "a", Op.ins 2 "b", Op.ins 3 "c"])
        = [(3, "c"), (2, "b"), (1, "a")]) := by
  constructor
  · have hm := (runOps_spec ops (mkHashMap hasher) (inv_mk hasher)).2
    rw [hm, entries_mk]
  · intro h2
    have hm := (runOps_spec [Op.ins 1 "a", Op.ins 2 "b", Op.ins 3 "c"]
      (mkHashMap h2) (inv_mk h2)).2
    rw [hm, entries_mk]
    rfl

/-- C4: starting from an empty map (initial capacity 16), inserting 12
distinct keys one at a time leaves the capacity at 16 after each of the
first 11 inserts and doubles it to exactly 32 upon the 12th, and all 12
keys remain retrievable with their correct values afterwards. -/
theorem claim_C4 (hasher : K → Nat) (ps : List (K × V))
    (hlen : ps.length = 12) (hnd : (ps.map Prod.fst).Nodup) :
    (∀ j ≤ 11, (runOps (mkHashMap hasher) (insOps (ps.take j))).capacity = 16) ∧
    (runOps (mkHashMap hasher) (insOps ps)).capacity = 32 ∧
    (runOps (mkHashMap hasher) (insOps ps)).sz = 12 ∧
    (∀ p ∈ ps, lookupVal (runOps (mkHashMap hasher) (insOps ps)) p.1 = some p.2) := by
  have hsmall : ∀ j, j < 12 → capIterIns 0 16 j = 16 := by decide
  obtain ⟨g1, g2, g3, g4⟩ := insertList_spec ps (mkHashMap hasher) (inv_mk hasher) hnd
    (fun p _ => find_mk_none hasher p.1)
  refine ⟨?_, ?_, ?_, ?_⟩
  · intro j hj
    have hndt : ((ps.take j).map Prod.fst).Nodup := by
      rw [List.map_take]
      exact ((ps.map Prod.fst).take_sublist j).nodup hnd
    obtain ⟨_, _, _, q4⟩ := insertList_spec (ps.take j) (mkHashMap hasher)
      (inv_mk hasher) hndt (fun p _ => find_mk_none hasher p.1)
    rw [q4]
    show capIterIns 0 16 (ps.take j).length = 16
    rw [List.length_take, hlen, Nat.min_eq_left (by omega)]
    exact hsmall j (by omega)
  · rw [g4]
    show capIterIns 0 16 ps.length = 32
    rw [hlen]
    decide
  · rw [g3, hlen]
    rfl
  · intro p hp
    rw [lookupVal_entries g1.1, g2, entries_mk, List.append_nil]
    refine mLookup_eq_some_of_mem ?_ (List.mem_reverse.2 hp)
    rw [List.map_reverse]
    exact List.nodup_reverse.2 hnd

theorem claim_C4_witness :
    (∀ j ≤ 11, (runOps (mkHashMap idHasher) (insOps (pairs12.take j))).capacity = 16) ∧
    (runOps (mkHashMap idHasher) (insOps pairs12)).capacity = 32 ∧
    (runOps (mkHashMap idHasher) (insOps pairs12)).sz = 12 ∧
    (∀ p ∈ pairs12, lookupVal (runOps (mkHashMap idHasher) (insOps pairs12)) p.1 = some p.2) :=
  claim_C4 idHasher pairs12 (by decide) (by decide)

/-- C5: from any reachable map holding 12 entries at capacity 32, erasing 7
distinct present keys one at a time leaves the capacity at 32 after each of
the first 6 erases and halves it to exactly 16 upon the erase that brings
the size to 5 (load factor 5/32 ≤ 0.175ᵈ, capacity 32 > 16), and every key
not erased stays retrievable with its value. -/
theorem claim_C5 (s : HM K V) (h : Inv s) (hsz : s.sz = 12) (hcap : s.capacity = 32)
    (ks : List K) (hlen : ks.length = 7) (hnd : ks.Nodup)
    (hpres : ∀ k ∈ ks, find s k ≠ none) :
    (∀ j ≤ 6, (runOps s (ersOps (ks.take j))).capacity = 32) ∧
    (runOps s (ersOps ks)).capacity = 16 ∧
    (runOps s (ersOps ks)).sz = 5 ∧
    (∀ k v, lookupVal s k = some v → k ∉ ks →
      lookupVal (runOps s (ersOps ks)) k = some v) := by
  have hsmall : ∀ j, j < 7 → capIterErs 12 32 j = 32 := by decide
  obtain ⟨g1, g2, g3, g4⟩ := eraseList_spec ks s h hnd hpres
  refine ⟨?_, ?_, ?_, ?_⟩
  · intro j hj
    obtain ⟨_, _, _, q4⟩ := eraseList_spec (ks.take j) s h
      ((ks.take_sublist j).nodup hnd)
      (fun k hk => hpres k ((ks.take_sublist j).mem hk))
    rw [q4, hsz, hcap, List.length_take, hlen, Nat.min_eq_left (by omega)]
    exact hsmall j (by omega)
  · rw [g4, hsz, hcap, hlen]
    decide
  · rw [g3, hsz, hlen]
  · intro k v hv hk
    rw [lookupVal_entries g1.1, g2, mLookup_filter_notMem k ks _ hk,
      ← lookupVal_entries h.1]
    exact hv

theorem claim_C5_witness :
    (∀ j ≤ 6, (runOps s12 (ersOps ((List.range 7).take j))).capacity = 32) ∧
    (runOps s12 (ersOps (List.range 7))).capacity = 16 ∧
    (runOps s12 (ersOps (List.range 7))).sz = 5 ∧
    (∀ k v, lookupVal s12 k = some v → k ∉ List.range 7 →
      lookupVal (runOps s12 (ersOps (List.range 7))) k = some v) :=
  claim_C5 s12 (runOps_spec _ _ (inv_mk idHasher)).1 (by decide) (by decide)
    (List.range 7) (by decide) (by decide) (by decide)

/-- C6: `insert(k, v1)` followed by `insert(k, v2)` leaves the value at `k`
equal to `v1`, and the second insert changes nothing at all — the state
after it is literally equal to the state before it (so value, order
position, size and capacity are all unchanged; first-writer-wins). -/
theorem claim_C6 (s : HM K V) (k : K) (v1 v2 : V) (h : Inv s)
    (habs : find s k = none) :
    insert (insert s k v1) k v2 = insert s k v1 ∧
    lookupVal (insert s k v1) k = some v1 := by
  obtain ⟨w1, w2, _, _, _⟩ := insert_absent_spec s k v1 h habs
  have hl : lookupVal (insert s k v1) k = some v1 := by
    rw [lookupVal_entries w1.1, w2]
    exact mLookup_cons_self _ _ _
  refine ⟨?_, hl⟩
  unfold lookupVal at hl
  cases hf : find (insert s k v1) k with
  | none => rw [hf] at hl; cases hl
  | some n => exact insert_present _ _ _ hf

theorem claim_C6_witness :
    insert (insert (mkHashMap (V := Nat) idHasher) 4 10) 4 11
      = insert (mkHashMap (V := Nat) idHasher) 4 10 ∧
    lookupVal (insert (mkHashMap (V := Nat) idHasher) 4 10) 4 = some 10 :=
  claim_C6 (mkHashMap idHasher) 4 10 11 (inv_mk idHasher) (by decide)

/-- C7: the only error the container signals is `NotFound`, raised by
`at(key)` exactly when the key is absent; `find` on an absent key returns
the end sentinel; `erase` on an absent key leaves the entire state
unchanged; and after `erase(k)`, `find(k)` returns the end sentinel and
`at(k)` signals `NotFound`. -/
theorem claim_C7 (s : HM K V) (k : K) (h : Inv s) :
    (atKey s k = .error .NotFound ↔ find s k = none) ∧
    (∀ n, find s k = some n → atKey s k = .ok (getNode s n).value) ∧
    (find s k = none → erase s k = s) ∧
    find (erase s k) k = none ∧
    atKey (erase s k) k = .error .NotFound := by
  have hgone : find (erase s k) k = none := by
    cases hf : find s k with
    | none => rw [erase_absent s k hf]; exact hf
    | some n =>
      obtain ⟨w1, w2, _, _, _⟩ := erase_present_spec s h hf
      rw [find_eq_none_iff_keys w1.1, w2]
      intro hc
      obtain ⟨q, hq, hq1⟩ := List.mem_map.1 hc
      have := (List.mem_filter.1 hq).2
      rw [hq1] at this
      simp at this
  refine ⟨?_, ?_, erase_absent s k, hgone, ?_⟩
  · unfold atKey
    cases hf : find s k <;> simp
  · intro n hf
    unfold atKey
    rw [hf]
  · unfold atKey
    rw [hgone]

theorem claim_C7_witness :
    (atKey (mkHashMap (V := Nat) idHasher) 3 = .error .NotFound ↔
      find (mkHashMap (V := Nat) idHasher) 3 = none) ∧
    (∀ n, find (mkHashMap (V := Nat) idHasher) 3 = some n →
      atKey (mkHashMap (V := Nat) idHasher) 3
        = .ok (getNode (mkHashMap (V := Nat) idHasher) n).value) ∧
    (find (mkHashMap (V := Nat) idHasher) 3 = none →
      erase (mkHashMap (V := Nat) idHasher) 3 = mkHashMap idHasher) ∧
    find (erase (mkHashMap (V := Nat) idHasher) 3) 3 = none ∧
    atKey (erase (mkHashMap (V := Nat) idHasher) 3) 3 = .error .NotFound :=
  claim_C7 (mkHashMap idHasher) 3 (inv_mk idHasher)

/-- C8, counterexample: the source's rehash appends each node at the TAIL
of its new chain (`push_back`), not at the head as the claim states.  At
the state the 12th insert hands to `rehash` under an all-collide hash, the
code's rehash leaves bucket 0 in order-sequence order, while the claim's
head-insertion algorithm would leave it reversed; the two bucket arrays
differ. -/
theorem claim_C8_counterexample :
    (rehash c8State).buckets ≠ (rehashHead c8State).buckets ∧
    bucketAt (rehash c8State) 0 = c8State.seq ∧
    bucketAt (rehashHead c8State) 0 ≠ c8State.seq := by
  refine ⟨by decide, by decide, by decide⟩

/-- C8 (amended): during every rehash triggered by a capacity change, each
node currently present (visited via the order sequence) is removed from its
old bucket chain if the old index is still addressable, has its bucket
index recomputed against the new capacity, and is APPENDED AT THE TAIL of
its new bucket chain — so each chain ends up listing exactly its nodes in
order-sequence order — with order-sequence links untouched throughout. -/
theorem claim_C8_amended (t : HM K V) (L : Nat)
    (hL : t.buckets.length = L) (hcap : 0 < t.capacity)
    (hnodup : t.seq.Nodup) (hlt : ∀ n ∈ t.seq, n < t.store.length)
    (hbi : ∀ n ∈ t.seq, (getNode t n).bucket_index < L)
    (hbk : ∀ i < L, bucketAt t i
        = t.seq.filter (fun n => decide ((getNode t n).bucket_index = i))) :
    (rehash t).seq = t.seq ∧
    (∀ n ∈ t.seq,
      (getNode (rehash t) n).key = (getNode t n).key ∧
      (getNode (rehash t) n).value = (getNode t n).value ∧
      (getNode (rehash t) n).bucket_index = t.hasher (getNode t n).key % t.capacity) ∧
    (∀ i < t.capacity, bucketAt (rehash t) i
        = t.seq.filter (fun n => decide ((getNode (rehash t) n).bucket_index = i))) := by
  obtain ⟨_, r2, _, _, _, _, r7, _, r9⟩ := rehash_spec t L hL hcap hnodup hlt hbi hbk
  exact ⟨r2, r7, r9⟩

theorem claim_C8_amended_witness :
    c8State.buckets.length = 16 ∧ (rehash c8State).seq = c8State.seq :=
  ⟨by decide,
    (claim_C8_amended c8State 16 (by decide) (by decide) (by decide) (by decide)
      (by decide) (by decide)).1⟩

/-- C9: `clear()` on every invariant state removes all entries (`find`
misses every key afterwards, iteration is empty), resets `size()` to 0 (so
`empty()` is true), and resets the capacity and the bucket array to exactly
those of a freshly constructed map — so subsequent growth triggers follow
the initial-capacity schedule regardless of the capacity reached before the
call. -/
theorem claim_C9 (s : HM K V) (h : Inv s) :
    size (clear s) = 0 ∧
    isEmpty (clear s) = true ∧
    (clear s).capacity = INIT_CAPACITY ∧
    (clear s).buckets = (mkHashMap (K := K) (V := V) s.hasher).buckets ∧
    (clear s).seq = [] ∧
    entries (clear s) = [] ∧
    (∀ k, find (clear s) k = none) ∧
    Inv (clear s) := by
  obtain ⟨c1, c2, c3, c4, c5, c6, c7, c8⟩ := clear_spec s h
  refine ⟨c2, ?_, c3, ?_, c1, c6, c8, c7⟩
  · show ((clear s).sz == 0) = true
    rw [c2]
    rfl
  · rw [c4]
    rfl

theorem claim_C9_witness :
    size (clear s12) = 0 ∧
    isEmpty (clear s12) = true ∧
    (clear s12).capacity = INIT_CAPACITY ∧
    (clear s12).buckets = (mkHashMap (K := Nat) (V := Nat) s12.hasher).buckets ∧
    (clear s12).seq = [] ∧
    entries (clear s12) = [] ∧
    (∀ k, find (clear s12) k = none) ∧
    Inv (clear s12) :=
  claim_C9 s12 (runOps_spec _ _ (inv_mk idHasher)).1

/-- C10: after every sequence of public operations from a fresh map, every
bucket chain lists its nodes front-to-back in exactly the relative order in
which they occur head-to-tail in the order sequence (each chain is a
sublist of the order sequence — indeed exactly the subsequence of nodes
cached for that addressable index), which is what makes the
`pop_front`-based removals in `rehash()` and `clear()` remove exactly the
intended node. -/
theorem claim_C10 (hasher : K → Nat) (ops : List (Op K V)) (i : Nat) :
    List.Sublist (bucketAt (runOps (mkHashMap hasher) ops) i)
      (runOps (mkHashMap hasher) ops).seq ∧
    bucketAt (runOps (mkHashMap hasher) ops) i
      = (runOps (mkHashMap hasher) ops).seq.filter
          (fun n => decide ((getNode (runOps (mkHashMap hasher) ops) n).bucket_index = i)
            && decide (i < (runOps (mkHashMap hasher) ops).capacity)) := by
  obtain ⟨g1, _⟩ := runOps_spec ops (mkHashMap hasher) (inv_mk hasher)
  have hchar : bucketAt (runOps (mkHashMap hasher) ops) i
      = (runOps (mkHashMap hasher) ops).seq.filter
          (fun n => decide ((getNode (runOps (mkHashMap hasher) ops) n).bucket_index = i)
            && decide (i < (runOps (mkHashMap hasher) ops).capacity)) := by
    rcases Nat.lt_or_ge i (runOps (mkHashMap hasher) ops).capacity with hi | hi
    · rw [g1.1.buckets_eq i hi]
      refine List.filter_congr (fun n _ => ?_)
      simp [hi]
    · have hnil : bucketAt (runOps (mkHashMap hasher) ops) i = [] := by
        unfold bucketAt
        exact getD_of_length_le _ (by rw [g1.1.cap_buckets]; exact hi)
      rw [hnil]
      symm
      rw [List.filter_eq_nil_iff]
      intro n _
      simp
      omega
  exact ⟨hchar ▸ List.filter_sublist _, hchar⟩

end HashMapVerify
